import Mathlib

/-!
# ShortestPathMaps: the `Digraph` class template of `core/Digraph.hpp`

A shallow embedding of `Digraph<VertexInfo, EdgeInfo>` and the properties its
specification states about it.

Modelling conventions

* `std::map<int, T>` is the list of its entries in iteration order (ascending key, keys
  unique); `IntMap.Ordered` is that class invariant.  `find`, `insert`, `operator[]`, `at`
  and `erase` are the linear-scan versions of the tree operations.
* `std::list<DigraphEdge<EdgeInfo>>` is a `List`.
* `int` vertex numbers are `Int`; they are only compared and copied, never computed with.
  Container sizes are `Nat` (the source narrows `size()` to `int`; sizes below `2^31`).
* `double` enters `findShortestPaths` through the class `DoubleArith` (zero, `INT_MAX`, sum,
  comparison).  `Binary64` is the IEEE 754 format with its rounded sum; `exactArith` reads
  `double` as a linearly ordered ring, which agrees with it wherever the sums formed are
  representable: for integer weights in `[0, 2^52)` the run in `Binary64` is the run on
  `W = Int` (`findShortestPaths_ofInt`).
* A `throw DigraphException(...)` is a `Failure` value; the reason strings of the source are
  grouped by the error they report.
* Erasing a list element through an iterator and then incrementing that same iterator
  (`removeVertex`, `removeEdge`) has no defined behaviour in C++: `Outcome.undefined`.
* Several `Digraph` objects are a `Store` of graph values by object name; copying assigns
  the value of one name to another.
-/

namespace ShortestPathMaps

/-! ## Failures -/

/-- The exceptions the code can raise.  The first five are `DigraphException`, told apart by
their reason string:
`emptyDigraph` is "Empty Digraph";
`unknownVertex` is "No edges exist that are outgoing from this vertex", "No vertex with that
number exists", "No such vertex with that number exists", "One or Both vertex does not exist",
"Vertex does not exist", "Either one vertex or both vertcies do not exist";
`duplicateVertex` is "Vertex already exists";
`unknownEdge` is "No such edge exists", "Edge does not exist";
`duplicateEdge` is "Not a valid edge".
`outOfRange` is the `std::out_of_range` of `std::map::at`. -/
inductive Failure where
  | emptyDigraph
  | unknownVertex
  | duplicateVertex
  | unknownEdge
  | duplicateEdge
  | outOfRange
  deriving DecidableEq, Repr

/-- Result of a mutating member function: normal return with the new object state, an
exception together with the object state at the `throw`, or undefined behaviour. -/
inductive Outcome (σ : Type) where
  | ok (s : σ)
  | thrown (e : Failure) (s : σ)
  | undefined
  deriving DecidableEq, Repr

/-- Sequencing of mutating calls in a script that stops at the first failure. -/
def Outcome.andThen {σ : Type} (o : Outcome σ) (f : σ → Outcome σ) : Outcome σ :=
  match o with
  | .ok s => f s
  | .thrown e s => .thrown e s
  | .undefined => .undefined

/-! ## `std::map<int, T>` -/

/-- Entries of a `std::map<int, T>` in iteration order. -/
abbrev IntMap (T : Type) := List (Int × T)

namespace IntMap

variable {T : Type}

/-- Class invariant of `std::map`: strictly ascending keys. -/
def Ordered (m : IntMap T) : Prop := List.Pairwise (fun a b => a < b) (m.map Prod.fst)

instance (m : IntMap T) : Decidable (Ordered m) := by
  unfold Ordered; infer_instance

/-- Lookup `find(k)`: `none` stands for `end()`. -/
def find : IntMap T → Int → Option T
  | [], _ => none
  | (k', x) :: rest, k => if k' = k then some x else find rest k

/-- Insertion `insert(std::pair(k, x))`: no effect when the key is present. -/
def insert : IntMap T → Int → T → IntMap T
  | [], k, x => [(k, x)]
  | (k', x') :: rest, k, x =>
    if k < k' then (k, x) :: (k', x') :: rest
    else if k = k' then (k', x') :: rest
    else (k', x') :: insert rest k x

/-- Assignment `m[k] = x`: overwrite, or insert when the key is absent. -/
def assign : IntMap T → Int → T → IntMap T
  | [], k, x => [(k, x)]
  | (k', x') :: rest, k, x =>
    if k < k' then (k, x) :: (k', x') :: rest
    else if k = k' then (k', x) :: rest
    else (k', x') :: assign rest k x

/-- Read access `m[k]`: the stored value, or the value-initialised `d` that `operator[]`
inserts when the key is absent; the second component is the map afterwards. -/
def index (m : IntMap T) (k : Int) (d : T) : T × IntMap T :=
  match find m k with
  | some x => (x, m)
  | none => (d, insert m k d)

/-- Removal `erase(k)` by key. -/
def erase : IntMap T → Int → IntMap T
  | [], _ => []
  | (k', x') :: rest, k => if k' = k then rest else (k', x') :: erase rest k

/-- In-place update of the element `at(k)` refers to. -/
def modify : IntMap T → Int → (T → T) → IntMap T
  | [], _, _ => []
  | (k', x') :: rest, k, f => if k' = k then (k', f x') :: rest else (k', x') :: modify rest k f

end IntMap

/-! ## Data model -/

/-- Record `DigraphEdge<EdgeInfo>`. -/
structure DigraphEdge (E : Type) where
  fromVertex : Int
  toVertex : Int
  einfo : E
  deriving DecidableEq, Repr

/-- Record `DigraphVertex<VertexInfo, EdgeInfo>`. -/
structure DigraphVertex (V E : Type) where
  vinfo : V
  edges : List (DigraphEdge E)
  deriving DecidableEq, Repr

/-- Class `Digraph<VertexInfo, EdgeInfo>`: its one data member. -/
structure Digraph (V E : Type) where
  ImTheMap : IntMap (DigraphVertex V E)
  deriving DecidableEq, Repr

namespace Digraph

variable {V E : Type}

/-- The default constructor. -/
def empty : Digraph V E := ⟨[]⟩

/-- The double loop shared by `edges`, `edgeInfo`, `addEdge`: every stored edge, vertex by
vertex in map order, each list front to back. -/
def storedEdges : IntMap (DigraphVertex V E) → List (DigraphEdge E)
  | [] => []
  | (_, vx) :: rest => vx.edges ++ storedEdges rest

/-- Member `vertices()`. -/
def vertices (g : Digraph V E) : List Int := g.ImTheMap.map Prod.fst

/-- Member `edges()`. -/
def edges (g : Digraph V E) : List (Int × Int) :=
  (storedEdges g.ImTheMap).map (fun e => (e.fromVertex, e.toVertex))

/-- Member `edges(int vertex)`. -/
def edgesOf (g : Digraph V E) (vertex : Int) : Except Failure (List (Int × Int)) :=
  if g.ImTheMap.length = 0 then .error .emptyDigraph
  else if (g.ImTheMap.find vertex).isNone then .error .unknownVertex
  else .ok (((storedEdges g.ImTheMap).filter (fun e => e.fromVertex = vertex)).map
        (fun e => (e.fromVertex, e.toVertex)))

/-- Member `vertexInfo(int vertex)`. -/
def vertexInfo (g : Digraph V E) (vertex : Int) : Except Failure V :=
  if g.ImTheMap.length = 0 then .error .emptyDigraph
  else match g.ImTheMap.find vertex with
    | none => .error .unknownVertex
    | some vx => .ok vx.vinfo

/-- Member `edgeInfo(int fromVertex, int toVertex)`. -/
def edgeInfo (g : Digraph V E) (fromVertex toVertex : Int) : Except Failure E :=
  if g.ImTheMap.length = 0 then .error .emptyDigraph
  else if (g.ImTheMap.find fromVertex).isNone ∨ (g.ImTheMap.find toVertex).isNone then
    .error .unknownVertex
  else match (storedEdges g.ImTheMap).find?
      (fun e => e.fromVertex = fromVertex ∧ e.toVertex = toVertex) with
    | some e => .ok e.einfo
    | none => .error .unknownEdge

/-- Member `addVertex(int vertex, const VertexInfo& vinfo)`. -/
def addVertex (g : Digraph V E) (vertex : Int) (vinfo : V) : Outcome (Digraph V E) :=
  if (g.ImTheMap.find vertex).isSome then .thrown .duplicateVertex g
  else .ok ⟨g.ImTheMap.insert vertex ⟨vinfo, []⟩⟩

/-- The `edges.push_back(e)` on a vertex record. -/
def pushBack (e : DigraphEdge E) (vx : DigraphVertex V E) : DigraphVertex V E :=
  { vx with edges := vx.edges ++ [e] }

/-- Member `addEdge(int fromVertex, int toVertex, const EdgeInfo& einfo)`. -/
def addEdge (g : Digraph V E) (fromVertex toVertex : Int) (einfo : E) : Outcome (Digraph V E) :=
  if (g.ImTheMap.find fromVertex).isNone ∨ (g.ImTheMap.find toVertex).isNone then
    .thrown .unknownVertex g
  else if (storedEdges g.ImTheMap).any
      (fun e => e.fromVertex = fromVertex ∧ e.toVertex = toVertex) then
    .thrown .duplicateEdge g
  else
    .ok ⟨g.ImTheMap.modify fromVertex (pushBack ⟨fromVertex, toVertex, einfo⟩)⟩

/-- The inner `for (FoL = begin(); FoL != end(); ++FoL) if (hit(*FoL)) erase(FoL);` of
`removeVertex` and `removeEdge`.  `erase(FoL)` invalidates `FoL`, and the loop then
evaluates `++FoL`: from the first hit on the behaviour is undefined (`none`).  Without a hit
the list is traversed and left as it is. -/
def eraseScan (hit : DigraphEdge E → Bool) : List (DigraphEdge E) → Option (List (DigraphEdge E))
  | [] => some []
  | e :: rest =>
    if hit e then none
    else match eraseScan hit rest with
      | none => none
      | some rest' => some (e :: rest')

/-- The outer loop over the map around `eraseScan`. -/
def eraseScanAll (hit : DigraphEdge E → Bool) :
    IntMap (DigraphVertex V E) → Option (IntMap (DigraphVertex V E))
  | [] => some []
  | (k, vx) :: rest =>
    match eraseScan hit vx.edges with
    | none => none
    | some es =>
      match eraseScanAll hit rest with
      | none => none
      | some rest' => some ((k, { vx with edges := es }) :: rest')

/-- Member `removeVertex(int vertex)`. -/
def removeVertex (g : Digraph V E) (vertex : Int) : Outcome (Digraph V E) :=
  if (g.ImTheMap.find vertex).isNone then .thrown .unknownVertex g
  else match eraseScanAll (fun e => e.toVertex = vertex) g.ImTheMap with
    | none => .undefined
    | some m => .ok ⟨m.erase vertex⟩

/-- Member `removeEdge(int fromVertex, int toVertex)`. -/
def removeEdge (g : Digraph V E) (fromVertex toVertex : Int) : Outcome (Digraph V E) :=
  if (g.ImTheMap.find fromVertex).isNone ∨ (g.ImTheMap.find toVertex).isNone then
    .thrown .unknownVertex g
  else if (fromVertex, toVertex) ∉ g.edges then .thrown .unknownEdge g
  else match eraseScanAll
      (fun e => e.toVertex = toVertex ∧ e.fromVertex = fromVertex) g.ImTheMap with
    | none => .undefined
    | some m => .ok ⟨m⟩

/-- Member `vertexCount()`. -/
def vertexCount (g : Digraph V E) : Nat := g.ImTheMap.length

/-- Member `edgeCount()`. -/
def edgeCount (g : Digraph V E) : Nat :=
  g.ImTheMap.foldl (fun EdgeLordCouncil p => EdgeLordCouncil + p.2.edges.length) 0

/-- Member `edgeCount(int vertex)`. -/
def edgeCountOf (g : Digraph V E) (vertex : Int) : Except Failure Nat :=
  match g.ImTheMap.find vertex with
  | none => .error .unknownVertex
  | some vx => .ok vx.edges.length

/-- The loop of `isStronglyConnected` over the remaining map entries. -/
def isStronglyConnectedLoop (g : Digraph V E) :
    IntMap (DigraphVertex V E) → Except Failure Bool
  | [] => .ok true
  | (k, _) :: rest =>
    match g.edgeCountOf k with
    | .error e => .error e
    | .ok n => if n ≠ g.vertexCount then .ok false else isStronglyConnectedLoop g rest

/-- Member `isStronglyConnected()`. -/
def isStronglyConnected (g : Digraph V E) : Except Failure Bool :=
  isStronglyConnectedLoop g g.ImTheMap

/-! ## The type `double` -/

/-- The four things `findShortestPaths` does with `double` values: the constant `0`
(`shortBoi[startVertex] = 0`, and the value `operator[]` inserts for a missing key), the
conversion of `INT_MAX`, the sum `shortBoi[curry_Boi] + edgeWeightFunc(...)` and the test
`shortBoi[dw] > dv`. -/
class DoubleArith (W : Type) where
  zero : W
  intMax : W
  add : W → W → W
  gt : W → W → Bool

/-- Exact arithmetic: `double` read as a linearly ordered ring.  This is what `double`
computes whenever the sums it forms are representable, as they are for integer weights with
totals below `2^53`; statements that quantify over a linearly ordered ring are about this
reading. -/
instance exactArith {W : Type} [LinearOrderedRing W] : DoubleArith W where
  zero := 0
  intMax := 2147483647
  add := fun a b => a + b
  gt := fun a b => decide (a > b)

/-- IEEE 754 binary64, the format of `double`: `finite m e` is the number `m * 2^e`, written
with any mantissa and exponent that give it (a value of the format has such a writing with
`|m| < 2^53` and `-1074 <= e <= 971`).  The sign of zero is not kept; it plays no part in
sums and comparisons. -/
inductive Binary64 where
  | finite (m : Int) (e : Int)
  | posInf
  | negInf
  | nan
  deriving DecidableEq, Repr

namespace Binary64

/-- Number of binary digits of `n`, by repeated halving (`fuel` bounds the number of
halvings). -/
def bitLengthAux : Nat → Nat → Nat
  | 0, _ => 0
  | fuel + 1, n => if n = 0 then 0 else bitLengthAux fuel (n / 2) + 1

/-- Number of binary digits of `n`. -/
def bitLength (n : Nat) : Nat := bitLengthAux n n

/-- Infinity of the sign of `m`. -/
def inf (m : Int) : Binary64 := if m < 0 then negInf else posInf

/-- The binary64 nearest to the exact number `m * 2^e`, ties to the even mantissa (the
default rounding mode): the result keeps 53 binary digits, fewer below `2^-1022` where the
spacing stays `2^-1074`, and is infinite from `2^1024` on. -/
def round (m : Int) (e : Int) : Binary64 :=
  let a := m.natAbs
  if a = 0 then finite 0 0
  else
    let bits : Int := bitLength a
    let ulp : Int := max (e + bits - 53) (-1074)
    if ulp ≤ e then
      if e + bits > 1024 then inf m else finite m e
    else
      let sh := (ulp - e).toNat
      let q := a / 2 ^ sh
      let r := a % 2 ^ sh
      let half := 2 ^ (sh - 1)
      let q' := if r > half ∨ (r = half ∧ q % 2 = 1) then q + 1 else q
      if ulp + (bitLength q' : Int) > 1024 then inf m
      else finite (if m < 0 then -(q' : Int) else (q' : Int)) ulp

/-- The sum `a + b` of two `double` values. -/
def add : Binary64 → Binary64 → Binary64
  | finite m₁ e₁, finite m₂ e₂ =>
    round (m₁ * 2 ^ (e₁ - min e₁ e₂).toNat + m₂ * 2 ^ (e₂ - min e₁ e₂).toNat) (min e₁ e₂)
  | nan, _ => nan
  | _, nan => nan
  | posInf, negInf => nan
  | negInf, posInf => nan
  | posInf, _ => posInf
  | _, posInf => posInf
  | negInf, _ => negInf
  | _, negInf => negInf

/-- The comparison `a > b` of two `double` values; false when either is not a number. -/
def gt : Binary64 → Binary64 → Bool
  | finite m₁ e₁, finite m₂ e₂ =>
    decide (m₁ * 2 ^ (e₁ - min e₁ e₂).toNat > m₂ * 2 ^ (e₂ - min e₁ e₂).toNat)
  | posInf, finite _ _ => true
  | posInf, negInf => true
  | finite _ _, negInf => true
  | _, _ => false

/-- The exact value of a finite `double` in units of `2^-k`, as an integer: `m * 2^(e + k)`
for `finite m e` with `e + k >= 0`. -/
def units (k : Int) : Binary64 → Int
  | finite m e => m * 2 ^ (e + k).toNat
  | _ => 0

end Binary64

/-- The arithmetic of `double` itself. -/
instance binary64Arith : DoubleArith Binary64 where
  zero := .finite 0 0
  intMax := .finite 2147483647 0
  add := Binary64.add
  gt := Binary64.gt

/-! ## `findShortestPaths` -/

section ShortestPaths

variable {W : Type} [DoubleArith W]

/-- Constant `INT_MAX` as a `double`. -/
def INT_MAX : W := DoubleArith.intMax

/-- A `std::priority_queue<int, std::vector<int>, std::greater<int>>` as the ascending list
of its elements: `push`. -/
def pqPush : List Int → Int → List Int
  | [], k => [k]
  | k' :: rest, k => if k ≤ k' then k :: k' :: rest else k' :: pqPush rest k

/-- The locals `shortBoi` (tentative distances), `pathBoi` (predecessors) and `qtBoi` (the
queue).  `lonelyBoi` is only ever written, never read, and is left out. -/
structure Locals (W : Type) where
  shortBoi : IntMap W
  pathBoi : IntMap Int
  qtBoi : List Int

/-- The initialisation loop over the map: queue every vertex, distance `INT_MAX`. -/
def initLoop : IntMap (DigraphVertex V E) → Locals W → Locals W
  | [], st => st
  | (k, _) :: rest, st =>
    initLoop rest
      { st with qtBoi := pqPush st.qtBoi k, shortBoi := st.shortBoi.assign k INT_MAX }

/-- The body of the edge loop for the edge `igor` out of `curry_Boi`. -/
def relax (edgeWeightFunc : E → W) (curry_Boi : Int) (st : Locals W) (igor : DigraphEdge E) :
    Locals W :=
  let r := st.shortBoi.index curry_Boi DoubleArith.zero
  let dv := DoubleArith.add r.1 (edgeWeightFunc igor.einfo)
  let dw := igor.toVertex
  let r' := r.2.index dw DoubleArith.zero
  if DoubleArith.gt r'.1 dv then
    { st with shortBoi := r'.2.assign dw dv, pathBoi := st.pathBoi.assign dw curry_Boi }
  else
    { st with shortBoi := r'.2 }

/-- The `while (!qtBoi.empty())` loop, on the queue content: nothing is pushed inside the
loop, so it runs once per queued key, smallest key first. -/
def mainLoop (g : Digraph V E) (edgeWeightFunc : E → W) :
    List Int → Locals W → Except Failure (Locals W)
  | [], st => .ok { st with qtBoi := [] }
  | curry_Boi :: rest, st =>
    match g.ImTheMap.find curry_Boi with
    | none => .error .outOfRange
    | some vx => mainLoop g edgeWeightFunc rest
        (vx.edges.foldl (relax edgeWeightFunc curry_Boi) { st with qtBoi := rest })

/-- Member `findShortestPaths(int startVertex, edgeWeightFunc)`. -/
def findShortestPaths (g : Digraph V E) (startVertex : Int) (edgeWeightFunc : E → W) :
    Except Failure (IntMap Int) :=
  let st0 : Locals W := initLoop g.ImTheMap ⟨[], [], []⟩
  let st1 : Locals W :=
    { st0 with shortBoi := st0.shortBoi.assign startVertex DoubleArith.zero,
               pathBoi := st0.pathBoi.assign startVertex startVertex }
  match mainLoop g edgeWeightFunc st1.qtBoi st1 with
  | .error e => .error e
  | .ok st => .ok st.pathBoi

end ShortestPaths


/-! ## Reachability -/

/-- Reachability along stored edges: `Reachable g u v` when a directed path of zero or more
edges of `g.edges` leads from `u` to `v`. -/
inductive Reachable (g : Digraph V E) : Int → Int → Prop where
  | refl (u : Int) : Reachable g u u
  | step {u v w : Int} : Reachable g u v → (v, w) ∈ g.edges → Reachable g u w

/-- Total weight of the walk through the listed vertices: the sum of the weights of the
edges between consecutive vertices, each looked up with `edgeInfo`. -/
def walkWeight {W : Type} [LinearOrderedRing W] (g : Digraph V E) (edgeWeightFunc : E → W) :
    List Int → Except Failure W
  | [] => .ok 0
  | [_] => .ok 0
  | a :: b :: rest =>
    match g.edgeInfo a b, walkWeight g edgeWeightFunc (b :: rest) with
    | .ok x, .ok s => .ok (edgeWeightFunc x + s)
    | .error e, _ => .error e
    | .ok _, .error e => .error e

/-- The backward walk of the caller (`main`): from `t`, follow predecessor links until a
vertex that is its own predecessor or has no entry, at most `fuel` links; the vertices are
listed in forward order. -/
def predChain (pathBoi : IntMap Int) : Nat → Int → List Int
  | 0, t => [t]
  | fuel + 1, t =>
    match pathBoi.find t with
    | none => [t]
    | some p => if p = t then [t] else predChain pathBoi fuel p ++ [t]

/-! ## Scenarios -/

/-- A call sequence on a fresh graph: run the calls in order from the default-constructed
graph. -/
def build (calls : List (Digraph V E → Outcome (Digraph V E))) : Outcome (Digraph V E) :=
  calls.foldl Outcome.andThen (.ok empty)

/-- Scenario of the specification: vertices 0, 1, 2, edges 0->1 (1), 1->2 (1), 0->2 (5); the
edge payload is the weight. -/
def scenarioCalls (W : Type) [LinearOrderedRing W] : List (Digraph Unit W → Outcome (Digraph Unit W)) :=
  [fun g => g.addVertex 0 (), fun g => g.addVertex 1 (), fun g => g.addVertex 2 (),
   fun g => g.addEdge 0 1 1, fun g => g.addEdge 1 2 1, fun g => g.addEdge 0 2 5]

/-- The graph `scenarioCalls` builds. -/
def scenarioGraph (W : Type) [LinearOrderedRing W] : Digraph Unit W :=
  ⟨[(0, ⟨(), [⟨0, 1, 1⟩, ⟨0, 2, 5⟩]⟩), (1, ⟨(), [⟨1, 2, 1⟩]⟩), (2, ⟨(), []⟩)]⟩

/-- Vertices 0..3 with the edges 0->1 (5), 0->2 (1), 2->1 (1), 1->3 (1), 0->3 (4); the edge
payload is the weight. -/
def detourCalls : List (Digraph Unit Int → Outcome (Digraph Unit Int)) :=
  [fun g => g.addVertex 0 (), fun g => g.addVertex 1 (), fun g => g.addVertex 2 (),
   fun g => g.addVertex 3 (),
   fun g => g.addEdge 0 1 5, fun g => g.addEdge 0 2 1, fun g => g.addEdge 2 1 1,
   fun g => g.addEdge 1 3 1, fun g => g.addEdge 0 3 4]

/-- The graph `detourCalls` builds. -/
def detourGraph : Digraph Unit Int :=
  ⟨[(0, ⟨(), [⟨0, 1, 5⟩, ⟨0, 2, 1⟩, ⟨0, 3, 4⟩]⟩), (1, ⟨(), [⟨1, 3, 1⟩]⟩),
    (2, ⟨(), [⟨2, 1, 1⟩]⟩), (3, ⟨(), []⟩)]⟩

/-- Two vertices 0 and 1, no edge. -/
def twoIsolated : Digraph Unit Int :=
  ⟨[(0, ⟨(), []⟩), (1, ⟨(), []⟩)]⟩

/-- One vertex 0, no edge. -/
def oneVertex : Digraph Unit Int :=
  ⟨[(0, ⟨(), []⟩)]⟩

/-- The cycle 0->1->2->0. -/
def cycleCalls : List (Digraph Unit Unit → Outcome (Digraph Unit Unit)) :=
  [fun g => g.addVertex 0 (), fun g => g.addVertex 1 (), fun g => g.addVertex 2 (),
   fun g => g.addEdge 0 1 (), fun g => g.addEdge 1 2 (), fun g => g.addEdge 2 0 ()]

/-- The graph `cycleCalls` builds. -/
def cycleGraph : Digraph Unit Unit :=
  ⟨[(0, ⟨(), [⟨0, 1, ()⟩]⟩), (1, ⟨(), [⟨1, 2, ()⟩]⟩), (2, ⟨(), [⟨2, 0, ()⟩]⟩)]⟩

/-- Vertices 0 and 1 with the edge 0->1. -/
def arrowCalls : List (Digraph Nat Nat → Outcome (Digraph Nat Nat)) :=
  [fun g => g.addVertex 0 10, fun g => g.addVertex 1 11, fun g => g.addEdge 0 1 7]

/-- The graph `arrowCalls` builds. -/
def arrowGraph : Digraph Nat Nat :=
  ⟨[(0, ⟨10, [⟨0, 1, 7⟩]⟩), (1, ⟨11, []⟩)]⟩

/-! ## Call sequences and the shape of the graphs they build -/

/-- A call of one of the four mutating members. -/
inductive Call (V E : Type) where
  | addVertex (vertex : Int) (vinfo : V)
  | addEdge (fromVertex toVertex : Int) (einfo : E)
  | removeVertex (vertex : Int)
  | removeEdge (fromVertex toVertex : Int)

/-- The member function a call names, applied to a graph. -/
def Call.run : Call V E → Digraph V E → Outcome (Digraph V E)
  | .addVertex vertex vinfo, g => g.addVertex vertex vinfo
  | .addEdge fromVertex toVertex einfo, g => g.addEdge fromVertex toVertex einfo
  | .removeVertex vertex, g => g.removeVertex vertex
  | .removeEdge fromVertex toVertex, g => g.removeEdge fromVertex toVertex

/-- The graphs reachable from the default-constructed graph by calls of the four mutating
members.  A call that returns and a call that throws both leave a graph to go on with; a
call whose behaviour is undefined leaves none. -/
inductive Built : Digraph V E → Prop where
  | empty : Built empty
  | ok (c : Call V E) {g g' : Digraph V E} : Built g → c.run g = .ok g' → Built g'
  | thrown (c : Call V E) {g g' : Digraph V E} {e : Failure} :
      Built g → c.run g = .thrown e g' → Built g'

/-- Shape of a graph: the map is ordered, every edge sits in the list of its own
`fromVertex`, every `toVertex` is a vertex, and no ordered pair is stored twice. -/
structure WellFormed (g : Digraph V E) : Prop where
  ordered : g.ImTheMap.Ordered
  own : ∀ p ∈ g.ImTheMap, ∀ e ∈ p.2.edges, e.fromVertex = p.1
  closed : ∀ e ∈ storedEdges g.ImTheMap, e.toVertex ∈ g.vertices
  nodup : g.edges.Nodup

/-- Sum of a list of results, failing with the first failure. -/
def sumOk : List (Except Failure Nat) → Except Failure Nat
  | [] => .ok 0
  | .error e :: _ => .error e
  | .ok n :: rest =>
    match sumOk rest with
    | .error e => .error e
    | .ok s => .ok (n + s)

/-- The graph objects in scope, by name. -/
abbrev Store (V E : Type) := Nat → Digraph V E

/-- Overwrite the object named `n`. -/
def Store.set (s : Store V E) (n : Nat) (g : Digraph V E) : Store V E :=
  fun m => if m = n then g else s m

/-- The copy assignment `self = d` (`operator=(const Digraph& d)`): `ImTheMap.clear()` on
`self`, then `this->ImTheMap = d.ImTheMap`, a `std::map` assignment that copies every
entry. -/
def copyAssign (s : Store V E) (self d : Nat) : Store V E :=
  let s1 := s.set self ⟨[]⟩
  s1.set self ⟨(s1 d).ImTheMap⟩

/-- The copy constructor `Digraph self(d)`: the member of the new object `self` starts
empty, is cleared, and is then assigned `d.ImTheMap`. -/
def copyConstruct (s : Store V E) (self d : Nat) : Store V E :=
  copyAssign (s.set self ⟨[]⟩) self d

/-- A mutating call on the object named `n`; no other object is touched. -/
def Store.call (s : Store V E) (n : Nat) (c : Call V E) : Outcome (Store V E) :=
  match c.run (s n) with
  | .ok g' => .ok (s.set n g')
  | .thrown e g' => .thrown e (s.set n g')
  | .undefined => .undefined

/-- Calls that build the graph with the vertices `s`, `t` and the one edge `s -> t` whose
payload `c` is its weight. -/
def arcCalls {W : Type} (s t : Int) (c : W) : List (Digraph Unit W → Outcome (Digraph Unit W)) :=
  [fun g => g.addVertex s (), fun g => g.addVertex t (), fun g => g.addEdge s t c]

/-- The graph `arcCalls` builds when `s` and `t` differ. -/
def arcGraph {W : Type} (s t : Int) (c : W) : Digraph Unit W :=
  if s < t then ⟨[(s, ⟨(), [⟨s, t, c⟩]⟩), (t, ⟨(), []⟩)]⟩
  else ⟨[(t, ⟨(), []⟩), (s, ⟨(), [⟨s, t, c⟩]⟩)]⟩

/-- Vertices 0 and 1 with all four edges 0->0, 0->1, 1->0, 1->1. -/
def fullGraph : Digraph Unit Unit :=
  ⟨[(0, ⟨(), [⟨0, 0, ()⟩, ⟨0, 1, ()⟩]⟩), (1, ⟨(), [⟨1, 0, ()⟩, ⟨1, 1, ()⟩]⟩)]⟩

/-- Following the predecessor links of `pathBoi` from a key leads to `s` in finitely many
steps: `s` is its own predecessor, and every other key on the way has a predecessor
different from itself. -/
inductive Reaches (pathBoi : IntMap Int) (s : Int) : Int → Prop where
  | root : pathBoi.find s = some s → Reaches pathBoi s s
  | link {t p : Int} : t ≠ s → p ≠ t → pathBoi.find t = some p → Reaches pathBoi s p →
      Reaches pathBoi s t

/-- The `double` nearest to 0.1, which is `0x1.999999999999ap-4`. -/
def tenth : Binary64 := .finite 7205759403792794 (-56)

/-- The `double` nearest to 0.2, which is `0x1.999999999999ap-3`. -/
def fifth : Binary64 := .finite 7205759403792794 (-55)

/-- The `double` 0.30000000000000004, which is `0x1.3333333333334p-2`. -/
def threeTenthsUp : Binary64 := .finite 5404319552844596 (-54)

theorem exactArith_zero {W : Type} [LinearOrderedRing W] : (DoubleArith.zero : W) = 0 := rfl

theorem exactArith_intMax {W : Type} [LinearOrderedRing W] :
    (DoubleArith.intMax : W) = 2147483647 := rfl

theorem exactArith_add {W : Type} [LinearOrderedRing W] (a b : W) :
    DoubleArith.add a b = a + b := rfl

theorem exactArith_gt {W : Type} [LinearOrderedRing W] (a b : W) :
    (DoubleArith.gt a b = true) ↔ b < a := by
  show (decide (a > b) = true) ↔ b < a
  simp

theorem IntMap.find_isSome_iff {T : Type} (m : IntMap T) (k : Int) :
    (m.find k).isSome ↔ k ∈ m.map Prod.fst := by
  induction m with
  | nil => simp [IntMap.find]
  | cons p rest ih =>
    obtain ⟨k', x⟩ := p
    by_cases h : k' = k
    · simp [IntMap.find, h]
    · have h' : ¬ k = k' := fun e => h e.symm
      simp [IntMap.find, h, h', ih]

theorem IntMap.find_eq_none_iff {T : Type} (m : IntMap T) (k : Int) :
    m.find k = none ↔ k ∉ m.map Prod.fst := by
  rw [← IntMap.find_isSome_iff]
  cases m.find k <;> simp

theorem IntMap.find_insert_self {T : Type} (m : IntMap T) (k : Int) (x : T)
    (h : m.find k = none) : (m.insert k x).find k = some x := by
  induction m with
  | nil => simp [IntMap.insert, IntMap.find]
  | cons p rest ih =>
    obtain ⟨k', y⟩ := p
    have hk : ¬ k' = k := by
      intro e
      simp [IntMap.find, e] at h
    have hk' : ¬ k = k' := fun e => hk e.symm
    have hr : IntMap.find rest k = none := by
      simpa [IntMap.find, hk] using h
    by_cases hlt : k < k'
    · simp [IntMap.insert, hlt, IntMap.find]
    · simp [IntMap.insert, hlt, hk', IntMap.find, hk, ih hr]

theorem IntMap.find_insert_ne {T : Type} (m : IntMap T) (k u : Int) (x : T) (h : u ≠ k) :
    (m.insert k x).find u = m.find u := by
  have h' : ¬ k = u := fun e => h e.symm
  induction m with
  | nil => simp [IntMap.insert, IntMap.find, h']
  | cons p rest ih =>
    obtain ⟨k', y⟩ := p
    by_cases hlt : k < k'
    · simp [IntMap.insert, hlt, IntMap.find, h']
    · by_cases he : k = k'
      · simp [IntMap.insert, hlt, he]
      · simp [IntMap.insert, hlt, he, IntMap.find, ih]

theorem IntMap.length_insert {T : Type} (m : IntMap T) (k : Int) (x : T)
    (h : m.find k = none) : (m.insert k x).length = m.length + 1 := by
  induction m with
  | nil => simp [IntMap.insert]
  | cons p rest ih =>
    obtain ⟨k', y⟩ := p
    have hk : ¬ k' = k := by
      intro e
      simp [IntMap.find, e] at h
    have hk' : ¬ k = k' := fun e => hk e.symm
    have hr : IntMap.find rest k = none := by
      simpa [IntMap.find, hk] using h
    by_cases hlt : k < k'
    · simp [IntMap.insert, hlt]
    · simp [IntMap.insert, hlt, hk', ih hr]

theorem IntMap.find_modify {T : Type} (m : IntMap T) (k u : Int) (f : T → T) :
    (m.modify k f).find u = if u = k then (m.find k).map f else m.find u := by
  induction m with
  | nil => simp [IntMap.modify, IntMap.find]
  | cons p rest ih =>
    obtain ⟨k', y⟩ := p
    by_cases hk : k' = k
    · subst hk
      by_cases hu : u = k'
      · subst hu
        simp [IntMap.modify, IntMap.find]
      · have hu' : ¬ k' = u := fun e => hu e.symm
        simp [IntMap.modify, IntMap.find, hu, hu']
    · by_cases hu : u = k
      · subst hu
        simp [IntMap.modify, IntMap.find, hk, ih]
      · simp [IntMap.modify, IntMap.find, hk, hu, ih]

theorem IntMap.length_modify {T : Type} (m : IntMap T) (k : Int) (f : T → T) :
    (m.modify k f).length = m.length := by
  induction m with
  | nil => simp [IntMap.modify]
  | cons p rest ih =>
    obtain ⟨k', y⟩ := p
    by_cases hk : k' = k <;> simp [IntMap.modify, hk, ih]

theorem IntMap.keys_modify {T : Type} (m : IntMap T) (k : Int) (f : T → T) :
    (m.modify k f).map Prod.fst = m.map Prod.fst := by
  induction m with
  | nil => simp [IntMap.modify]
  | cons p rest ih =>
    obtain ⟨k', y⟩ := p
    by_cases hk : k' = k <;> simp [IntMap.modify, hk, ih]

theorem storedEdges_insert (m : IntMap (DigraphVertex V E)) (k : Int) (info : V) :
    storedEdges (m.insert k ⟨info, []⟩) = storedEdges m := by
  induction m with
  | nil => simp [IntMap.insert, storedEdges]
  | cons p rest ih =>
    obtain ⟨k', y⟩ := p
    by_cases hlt : k < k'
    · simp [IntMap.insert, hlt, storedEdges]
    · by_cases he : k = k'
      · simp [IntMap.insert, hlt, he]
      · simp [IntMap.insert, hlt, he, storedEdges, ih]

theorem storedEdges_modify_pushBack (m : IntMap (DigraphVertex V E)) (k : Int)
    (e : DigraphEdge E) (h : (m.find k).isSome) :
    ∃ l₁ l₂, storedEdges m = l₁ ++ l₂ ∧
      storedEdges (m.modify k (pushBack e)) = l₁ ++ e :: l₂ := by
  induction m with
  | nil => simp [IntMap.find] at h
  | cons p rest ih =>
    obtain ⟨k', y⟩ := p
    by_cases hk : k' = k
    · refine ⟨y.edges, storedEdges rest, ?_, ?_⟩
      · simp [storedEdges]
      · simp [IntMap.modify, hk, storedEdges, pushBack]
    · have hr : (IntMap.find rest k).isSome := by
        simpa [IntMap.find, hk] using h
      obtain ⟨l₁, l₂, h₁, h₂⟩ := ih hr
      refine ⟨y.edges ++ l₁, l₂, ?_, ?_⟩
      · simp [storedEdges, h₁]
      · simp [IntMap.modify, hk, storedEdges, h₂]

theorem foldl_edges_length (m : IntMap (DigraphVertex V E)) (n : Nat) :
    m.foldl (fun EdgeLordCouncil p => EdgeLordCouncil + p.2.edges.length) n
      = n + (storedEdges m).length := by
  induction m generalizing n with
  | nil => simp [storedEdges]
  | cons p rest ih =>
    simp [storedEdges, ih]
    omega

/-- Total of `edgeCount()` is the number of stored edges. -/
theorem edgeCount_eq_length (g : Digraph V E) :
    g.edgeCount = (storedEdges g.ImTheMap).length := by
  simp [edgeCount, foldl_edges_length]

/-! ## Shortest paths: the queue is ordered by vertex number -/

/-- The `while` loop raises nothing but the `std::out_of_range` of `at`. -/
theorem mainLoop_error_eq {W : Type} [LinearOrderedRing W] (g : Digraph V E) (w : E → W)
    (q : List Int) (st : Locals W) (e : Failure)
    (h : mainLoop g w q st = .error e) : e = .outOfRange := by
  induction q generalizing st with
  | nil => simp [mainLoop] at h
  | cons k rest ih =>
    simp only [mainLoop] at h
    cases hk : g.ImTheMap.find k with
    | none => rw [hk] at h; simp at h; exact h.symm
    | some vx => rw [hk] at h; exact ih _ h

/-- No call of `findShortestPaths` ends in a `DigraphException` for an unknown vertex. -/
theorem findShortestPaths_ne_unknownVertex {W : Type} [LinearOrderedRing W] (g : Digraph V E)
    (s : Int) (w : E → W) : g.findShortestPaths s w ≠ .error .unknownVertex := by
  intro h
  unfold findShortestPaths at h
  simp only at h
  split at h
  · rename_i e he
    have := mainLoop_error_eq g w _ _ e he
    subst this
    simp at h
  · simp at h

/-- C1 (the code departs from it): on the graph with edges 0->1 (5), 0->2 (1), 2->1 (1),
1->3 (1), 0->3 (4), built by the public operations, all weights non-negative,
`findShortestPaths(0, weight)` returns the map 0->0, 1->2, 2->0, 3->0.  The predecessor
chain of vertex 3 is the walk 0, 3 of total weight 4, while the walk 0, 2, 1, 3 has total
weight 3: the chain is not a minimum-weight path. -/
theorem C1_predecessor_chain_not_minimal :
    build detourCalls = .ok detourGraph ∧
    (∀ e ∈ storedEdges detourGraph.ImTheMap, (0 : Int) ≤ e.einfo) ∧
    detourGraph.findShortestPaths 0 (fun x : Int => x) = .ok [(0, 0), (1, 2), (2, 0), (3, 0)] ∧
    predChain [(0, 0), (1, 2), (2, 0), (3, 0)] 4 3 = [0, 3] ∧
    walkWeight detourGraph (fun x : Int => x) [0, 3] = .ok 4 ∧
    walkWeight detourGraph (fun x : Int => x) [0, 2, 1, 3] = .ok 3 := by
  refine ⟨by decide, by decide, rfl, by decide, rfl, rfl⟩

/-- C2 (the code departs from it): on the graph with the two vertices 0 and 1 and no edge,
`findShortestPaths(0, weight)` returns the one-entry map 0->0; vertex 1, which is not
reachable from 0, is not a key of the result (it is not mapped to itself). -/
theorem C2_unreached_vertex_not_a_key :
    twoIsolated.vertices = [0, 1] ∧
    ¬ Reachable twoIsolated 0 1 ∧
    twoIsolated.findShortestPaths 0 (fun x : Int => x) = .ok [(0, 0)] ∧
    IntMap.find [((0 : Int), (0 : Int))] 1 = none := by
  refine ⟨by decide, ?_, rfl, by decide⟩
  intro h
  cases h with
  | step _ hmem => simp [edges, twoIsolated, storedEdges] at hmem

/-- C3 (the code departs from it): on the graph with the single vertex 0,
`findShortestPaths(7, weight)` raises nothing although 7 is not a vertex; it returns the map
7->7, whose key is not a vertex of the graph. -/
theorem C3_unknown_start_vertex_returns_a_map :
    (7 : Int) ∉ oneVertex.vertices ∧
    oneVertex.findShortestPaths 7 (fun x : Int => x) = .ok [(7, 7)] := by
  refine ⟨by decide, rfl⟩

/-- C4: on the graph built by adding vertices 0, 1, 2 and then the edges 0->1 (weight 1),
1->2 (weight 1), 0->2 (weight 5), `findShortestPaths(0, weight)` returns exactly the map
0->0, 1->0, 2->1, whatever ordered ring the weights are computed in. -/
theorem C4_scenario_predecessors {W : Type} [LinearOrderedRing W] :
    build (scenarioCalls W) = .ok (scenarioGraph W) ∧
    (scenarioGraph W).findShortestPaths 0 (fun x : W => x) = .ok [(0, 0), (1, 0), (2, 1)] := by
  have h1 : (1 : W) < 2147483647 := by norm_num
  have h2 : (5 : W) < 2147483647 := by norm_num
  have h3 : (1 : W) + 1 < 5 := by norm_num
  constructor
  · simp [build, scenarioCalls, scenarioGraph, Outcome.andThen, addVertex, addEdge, empty,
      IntMap.find, IntMap.insert, IntMap.modify, storedEdges, pushBack]
  · simp [scenarioGraph, findShortestPaths, initLoop, mainLoop, relax, pqPush, IntMap.assign,
      IntMap.find, IntMap.index, IntMap.insert, INT_MAX, exactArith_zero, exactArith_add,
      exactArith_gt, exactArith_intMax, h1, h2, h3, -Prod.mk_zero_zero, -Prod.mk_one_one]

/-! ## Strong connectivity: the test compares out-degrees with the vertex count -/

/-- C5 (the code departs from it): the graph with the single vertex 0 and no edge is strongly
connected (its only vertex reaches itself), and `isStronglyConnected()` returns false on it:
the out-degree 0 differs from the vertex count 1. -/
theorem C5_single_vertex_not_reported_connected :
    (∀ u ∈ oneVertex.vertices, ∀ v ∈ oneVertex.vertices, Reachable oneVertex u v) ∧
    oneVertex.isStronglyConnected = .ok false := by
  refine ⟨?_, rfl⟩
  intro u hu v hv
  simp [vertices, oneVertex] at hu hv
  subst hu; subst hv
  exact .refl 0

/-- C6 (the code departs from it): on the cycle 0->1->2->0, built by the public operations,
every vertex reaches every vertex, and `isStronglyConnected()` returns false (each
out-degree is 1, the vertex count is 3).  The following `removeEdge(2, 0)` erases through
the loop iterator and then increments it. -/
theorem C6_cycle_not_reported_connected :
    build cycleCalls = .ok cycleGraph ∧
    (∀ u ∈ cycleGraph.vertices, ∀ v ∈ cycleGraph.vertices, Reachable cycleGraph u v) ∧
    cycleGraph.isStronglyConnected = .ok false ∧
    cycleGraph.removeEdge 2 0 = .undefined := by
  have e01 : ((0 : Int), (1 : Int)) ∈ cycleGraph.edges := by decide
  have e12 : ((1 : Int), (2 : Int)) ∈ cycleGraph.edges := by decide
  have e20 : ((2 : Int), (0 : Int)) ∈ cycleGraph.edges := by decide
  refine ⟨by decide, ?_, rfl, by decide⟩
  intro u hu v hv
  simp [vertices, cycleGraph] at hu hv
  rcases hu with rfl | rfl | rfl <;> rcases hv with rfl | rfl | rfl
  · exact .refl 0
  · exact .step (.refl 0) e01
  · exact .step (.step (.refl 0) e01) e12
  · exact .step (.step (.refl 1) e12) e20
  · exact .refl 1
  · exact .step (.refl 1) e12
  · exact .step (.refl 2) e20
  · exact .step (.step (.refl 2) e20) e01
  · exact .refl 2

/-! ## Mutation -/

/-- C7 (the code departs from it): on the graph with vertices 0, 1 and the edge 0->1, built
by the public operations, `removeVertex(1)` finds the incoming edge in the list of vertex 0,
erases it through the loop iterator and then increments that iterator: the call has no
defined result, it does not succeed.  `removeVertex(0)`, with no incoming edge, succeeds. -/
theorem C7_removeVertex_with_incoming_edge :
    build arrowCalls = .ok arrowGraph ∧
    arrowGraph.removeVertex 1 = .undefined ∧
    arrowGraph.removeVertex 0 = .ok ⟨[(1, ⟨11, []⟩)]⟩ := by
  refine ⟨by decide, by decide, by decide⟩

/-- C8: for every graph and every key `v` that is not a vertex of it, `addVertex(v, info)`
succeeds, and afterwards `vertexInfo(v)` returns `info`, `vertexCount()` is one more than
before, `edgeCount()` and `edges()` are as before, and every vertex payload and every edge
payload that could be read before is read unchanged. -/
theorem C8_addVertex_new (g : Digraph V E) (v : Int) (info : V) (h : v ∉ g.vertices) :
    ∃ g', g.addVertex v info = .ok g' ∧
      g'.vertexInfo v = .ok info ∧
      g'.vertexCount = g.vertexCount + 1 ∧
      g'.edgeCount = g.edgeCount ∧
      g'.edges = g.edges ∧
      (∀ u x, g.vertexInfo u = .ok x → g'.vertexInfo u = .ok x) ∧
      (∀ a b x, g.edgeInfo a b = .ok x → g'.edgeInfo a b = .ok x) := by
  have hnone : g.ImTheMap.find v = none := (IntMap.find_eq_none_iff _ _).2 h
  have hlen := IntMap.length_insert g.ImTheMap v ⟨info, []⟩ hnone
  refine ⟨⟨g.ImTheMap.insert v ⟨info, []⟩⟩, ?_, ?_, ?_, ?_, ?_, ?_, ?_⟩
  · simp [addVertex, hnone]
  · simp [vertexInfo, hlen, IntMap.find_insert_self _ _ _ hnone]
  · simp [vertexCount, hlen]
  · simp [edgeCount_eq_length, storedEdges_insert]
  · simp [edges, storedEdges_insert]
  · intro u x hu
    have huv : u ≠ v := by
      rintro rfl
      simp only [vertexInfo, hnone] at hu
      split at hu <;> cases hu
    simp only [vertexInfo, hlen, IntMap.find_insert_ne _ _ _ _ huv] at hu ⊢
    by_cases h0 : g.ImTheMap.length = 0
    · simp [h0] at hu
    · simpa [h0] using hu
  · intro a b x hab
    simp only [edgeInfo] at hab
    by_cases h0 : g.ImTheMap.length = 0
    · simp [h0] at hab
    · by_cases hv : (g.ImTheMap.find a).isNone ∨ (g.ImTheMap.find b).isNone
      · rw [if_neg h0, if_pos hv] at hab
        cases hab
      · have hav : a ≠ v := by
          rintro rfl
          exact hv (Or.inl (by simp [hnone]))
        have hbv : b ≠ v := by
          rintro rfl
          exact hv (Or.inr (by simp [hnone]))
        rw [if_neg h0, if_neg hv] at hab
        simp only [edgeInfo, hlen, IntMap.find_insert_ne _ _ _ _ hav,
          IntMap.find_insert_ne _ _ _ _ hbv, storedEdges_insert]
        rw [if_neg (by omega), if_neg hv]
        exact hab

/-- Witness for C8: adding the new vertex 5 with payload 42 to the graph 0->1. -/
theorem C8_addVertex_new_witness :
    (5 : Int) ∉ arrowGraph.vertices ∧
    ∃ g', arrowGraph.addVertex 5 42 = .ok g' ∧
      g'.vertexInfo 5 = .ok 42 ∧
      g'.vertexCount = arrowGraph.vertexCount + 1 ∧
      g'.edgeCount = arrowGraph.edgeCount ∧
      g'.edges = arrowGraph.edges ∧
      (∀ u x, arrowGraph.vertexInfo u = .ok x → g'.vertexInfo u = .ok x) ∧
      (∀ a b x, arrowGraph.edgeInfo a b = .ok x → g'.edgeInfo a b = .ok x) :=
  ⟨by decide, C8_addVertex_new arrowGraph 5 42 (by decide)⟩

/-- C9: for every graph and every key `v` that is already a vertex of it,
`addVertex(v, info)` raises the duplicate-vertex `DigraphException`, and the graph at that
point is the very graph before the call: vertex count, edge count, every `vertexInfo` and
every `edgeInfo` answer as before, the payload of `v` included. -/
theorem C9_addVertex_duplicate (g : Digraph V E) (v : Int) (info : V) (h : v ∈ g.vertices) :
    ∃ g', g.addVertex v info = .thrown .duplicateVertex g' ∧
      g' = g ∧
      g'.vertexCount = g.vertexCount ∧
      g'.edgeCount = g.edgeCount ∧
      (∀ u, g'.vertexInfo u = g.vertexInfo u) ∧
      (∀ a b, g'.edgeInfo a b = g.edgeInfo a b) := by
  have hsome : (g.ImTheMap.find v).isSome := (IntMap.find_isSome_iff _ _).2 h
  refine ⟨g, ?_, rfl, rfl, rfl, fun _ => rfl, fun _ _ => rfl⟩
  simp [addVertex, hsome]

/-- Witness for C9: adding vertex 1 again, with another payload, to the graph 0->1. -/
theorem C9_addVertex_duplicate_witness :
    (1 : Int) ∈ arrowGraph.vertices ∧
    ∃ g', arrowGraph.addVertex 1 99 = .thrown .duplicateVertex g' ∧
      g' = arrowGraph ∧
      g'.vertexCount = arrowGraph.vertexCount ∧
      g'.edgeCount = arrowGraph.edgeCount ∧
      (∀ u, g'.vertexInfo u = arrowGraph.vertexInfo u) ∧
      (∀ a b, g'.edgeInfo a b = arrowGraph.edgeInfo a b) :=
  ⟨by decide, C9_addVertex_duplicate arrowGraph 1 99 (by decide)⟩

/-- C10: for every graph in which `a` and `b` are vertices (possibly the same one) and no
edge `(a, b)` is stored, `addEdge(a, b, info)` succeeds, and afterwards `edgeInfo(a, b)`
returns `info`, `edgeCount()` and `edgeCount(a)` are each one more than before, the
out-degree of every other vertex, the answer of `edgeInfo` for every other pair, every
vertex payload and the vertex set are as before, and `edges()` is the former `edges()` with
the one pair `(a, b)` put in. -/
theorem C10_addEdge_new (g : Digraph V E) (a b : Int) (info : E)
    (ha : a ∈ g.vertices) (hb : b ∈ g.vertices) (hab : (a, b) ∉ g.edges) :
    ∃ g', g.addEdge a b info = .ok g' ∧
      g'.edgeInfo a b = .ok info ∧
      g'.edgeCount = g.edgeCount + 1 ∧
      (∃ n, g.edgeCountOf a = .ok n ∧ g'.edgeCountOf a = .ok (n + 1)) ∧
      (∀ u, u ≠ a → g'.edgeCountOf u = g.edgeCountOf u) ∧
      (∀ c d, (c, d) ≠ (a, b) → g'.edgeInfo c d = g.edgeInfo c d) ∧
      (∀ u, g'.vertexInfo u = g.vertexInfo u) ∧
      g'.vertices = g.vertices ∧
      (∃ l₁ l₂, g.edges = l₁ ++ l₂ ∧ g'.edges = l₁ ++ (a, b) :: l₂) := by
  have hsa : (g.ImTheMap.find a).isSome := (IntMap.find_isSome_iff _ _).2 ha
  have hsb : (g.ImTheMap.find b).isSome := (IntMap.find_isSome_iff _ _).2 hb
  have hno : ∀ e ∈ storedEdges g.ImTheMap, ¬ (e.fromVertex = a ∧ e.toVertex = b) := by
    intro e he hp
    apply hab
    simp only [edges, List.mem_map]
    exact ⟨e, he, by rw [hp.1, hp.2]⟩
  have hpos : g.ImTheMap.length ≠ 0 := by
    intro h0
    have : g.ImTheMap = [] := List.length_eq_zero.1 h0
    simp [this, IntMap.find] at hsa
  obtain ⟨l₁, l₂, hl, hl'⟩ :=
    storedEdges_modify_pushBack g.ImTheMap a ⟨a, b, info⟩ hsa
  have hfind : ∀ u, (g.ImTheMap.modify a (pushBack ⟨a, b, info⟩)).find u
      = if u = a then (g.ImTheMap.find a).map (pushBack ⟨a, b, info⟩) else g.ImTheMap.find u :=
    fun u => IntMap.find_modify _ _ _ _
  have hsome : ∀ u, ((g.ImTheMap.modify a (pushBack ⟨a, b, info⟩)).find u).isNone
      = (g.ImTheMap.find u).isNone := by
    intro u
    rw [hfind]
    by_cases hu : u = a
    · subst hu; simp
    · simp [hu]
  refine ⟨⟨g.ImTheMap.modify a (pushBack ⟨a, b, info⟩)⟩, ?_, ?_, ?_, ?_, ?_, ?_, ?_, ?_, ?_⟩
  · have hany : (storedEdges g.ImTheMap).any
        (fun e => decide (e.fromVertex = a ∧ e.toVertex = b)) = false := by
      rw [List.any_eq_false]
      intro e he
      simpa using hno e he
    have hv : ¬ ((g.ImTheMap.find a).isNone ∨ (g.ImTheMap.find b).isNone) := by
      intro h
      rcases h with h | h
      · rw [Option.isNone_iff_eq_none] at h; simp [h] at hsa
      · rw [Option.isNone_iff_eq_none] at h; simp [h] at hsb
    simp only [addEdge]
    rw [if_neg hv, hany]
    simp
  · have hv : ¬ ((g.ImTheMap.find a).isNone ∨ (g.ImTheMap.find b).isNone) := by
      intro h
      rcases h with h | h
      · rw [Option.isNone_iff_eq_none] at h; simp [h] at hsa
      · rw [Option.isNone_iff_eq_none] at h; simp [h] at hsb
    have hf : (l₁ ++ (⟨a, b, info⟩ : DigraphEdge E) :: l₂).find?
        (fun e => decide (e.fromVertex = a ∧ e.toVertex = b)) = some ⟨a, b, info⟩ := by
      have h1 : l₁.find? (fun e => decide (e.fromVertex = a ∧ e.toVertex = b)) = none := by
        rw [List.find?_eq_none]
        intro e he
        have := hno e (by rw [hl]; exact List.mem_append_left _ he)
        simpa using this
      rw [List.find?_append, h1]
      simp
    simp only [edgeInfo, IntMap.length_modify, hsome, hl']
    rw [if_neg hpos, if_neg hv, hf]
  · simp [edgeCount_eq_length, hl, hl']
    omega
  · cases hfa : g.ImTheMap.find a with
    | none => simp [hfa] at hsa
    | some vx =>
      refine ⟨vx.edges.length, ?_, ?_⟩
      · simp [edgeCountOf, hfa]
      · simp [edgeCountOf, hfind, hfa, pushBack]
  · intro u hu
    simp [edgeCountOf, hfind, hu]
  · intro c d hcd
    have hp : decide ((⟨a, b, info⟩ : DigraphEdge E).fromVertex = c ∧
        (⟨a, b, info⟩ : DigraphEdge E).toVertex = d) = false := by
      simp only [decide_eq_false_iff_not]
      rintro ⟨h1, h2⟩
      exact hcd (by rw [← h1, ← h2])
    have hf : (l₁ ++ (⟨a, b, info⟩ : DigraphEdge E) :: l₂).find?
          (fun e => decide (e.fromVertex = c ∧ e.toVertex = d))
        = (l₁ ++ l₂).find? (fun e => decide (e.fromVertex = c ∧ e.toVertex = d)) := by
      rw [List.find?_append, List.find?_append, List.find?_cons, hp]
    simp only [edgeInfo, IntMap.length_modify, hsome, hl', hl, hf]
  · intro u
    simp only [vertexInfo, IntMap.length_modify, hfind]
    by_cases hu : u = a
    · subst hu
      cases hfa : g.ImTheMap.find u with
      | none => simp [hfa] at hsa
      | some vx => simp [pushBack]
    · simp [hu]
  · simp [vertices, IntMap.keys_modify]
  · refine ⟨l₁.map (fun e => (e.fromVertex, e.toVertex)),
      l₂.map (fun e => (e.fromVertex, e.toVertex)), ?_, ?_⟩
    · simp [edges, hl]
    · simp [edges, hl']

/-- Witness for C10: adding the self-loop 1->1 with payload 8 to the graph 0->1. -/
theorem C10_addEdge_new_witness :
    (1 : Int) ∈ arrowGraph.vertices ∧ (1 : Int) ∈ arrowGraph.vertices ∧
    ((1 : Int), (1 : Int)) ∉ arrowGraph.edges ∧
    ∃ g', arrowGraph.addEdge 1 1 8 = .ok g' ∧
      g'.edgeInfo 1 1 = .ok 8 ∧
      g'.edgeCount = arrowGraph.edgeCount + 1 ∧
      (∃ n, arrowGraph.edgeCountOf 1 = .ok n ∧ g'.edgeCountOf 1 = .ok (n + 1)) ∧
      (∀ u, u ≠ 1 → g'.edgeCountOf u = arrowGraph.edgeCountOf u) ∧
      (∀ c d, (c, d) ≠ (1, 1) → g'.edgeInfo c d = arrowGraph.edgeInfo c d) ∧
      (∀ u, g'.vertexInfo u = arrowGraph.vertexInfo u) ∧
      g'.vertices = arrowGraph.vertices ∧
      (∃ l₁ l₂, arrowGraph.edges = l₁ ++ l₂ ∧ g'.edges = l₁ ++ (1, 1) :: l₂) :=
  ⟨by decide, by decide, by decide, C10_addEdge_new arrowGraph 1 1 8 (by decide) (by decide)
    (by decide)⟩

/-- C11: for every graph and every pair `(a, b)` of which `a` or `b` is not a vertex,
`addEdge(a, b, info)` raises the unknown-vertex `DigraphException`, and the graph at that
point is the very graph before the call: same vertices, same edges, same payloads. -/
theorem C11_addEdge_unknown_vertex (g : Digraph V E) (a b : Int) (info : E)
    (h : a ∉ g.vertices ∨ b ∉ g.vertices) :
    ∃ g', g.addEdge a b info = .thrown .unknownVertex g' ∧
      g' = g ∧
      g'.vertices = g.vertices ∧
      g'.edges = g.edges ∧
      (∀ u, g'.vertexInfo u = g.vertexInfo u) ∧
      (∀ c d, g'.edgeInfo c d = g.edgeInfo c d) := by
  have hv : (g.ImTheMap.find a).isNone ∨ (g.ImTheMap.find b).isNone := by
    rcases h with h | h
    · exact Or.inl (by rw [(IntMap.find_eq_none_iff _ _).2 h]; rfl)
    · exact Or.inr (by rw [(IntMap.find_eq_none_iff _ _).2 h]; rfl)
  refine ⟨g, ?_, rfl, rfl, rfl, fun _ => rfl, fun _ _ => rfl⟩
  simp only [addEdge]
  rw [if_pos hv]

/-- Witness for C11: an edge from the vertex 0 to the absent key 5 on the graph 0->1. -/
theorem C11_addEdge_unknown_vertex_witness :
    ((0 : Int) ∉ arrowGraph.vertices ∨ (5 : Int) ∉ arrowGraph.vertices) ∧
    ∃ g', arrowGraph.addEdge 0 5 3 = .thrown .unknownVertex g' ∧
      g' = arrowGraph ∧
      g'.vertices = arrowGraph.vertices ∧
      g'.edges = arrowGraph.edges ∧
      (∀ u, g'.vertexInfo u = arrowGraph.vertexInfo u) ∧
      (∀ c d, g'.edgeInfo c d = arrowGraph.edgeInfo c d) :=
  ⟨by decide, C11_addEdge_unknown_vertex arrowGraph 0 5 3 (by decide)⟩

/-- A hit in the list makes the inner loop erase and then increment the erased iterator. -/
theorem eraseScan_eq_none (hit : DigraphEdge E → Bool) (l : List (DigraphEdge E))
    (h : ∃ e ∈ l, hit e = true) : eraseScan hit l = none := by
  induction l with
  | nil => simp at h
  | cons e es ih =>
    obtain ⟨e', he', hp⟩ := h
    cases hhit : hit e with
    | true => simp [eraseScan, hhit]
    | false =>
      have hmem : e' ∈ es := by
        rcases List.mem_cons.1 he' with h | h
        · subst h; rw [hhit] at hp; cases hp
        · exact h
      simp only [eraseScan, hhit, ih ⟨e', hmem, hp⟩]
      rfl

/-- A hit anywhere in the map makes the double loop undefined. -/
theorem eraseScanAll_eq_none (hit : DigraphEdge E → Bool) (m : IntMap (DigraphVertex V E))
    (h : ∃ e ∈ storedEdges m, hit e = true) : eraseScanAll hit m = none := by
  induction m with
  | nil => simp [storedEdges] at h
  | cons p rest ih =>
    obtain ⟨k, vx⟩ := p
    obtain ⟨e, he, hp⟩ := h
    simp only [storedEdges, List.mem_append] at he
    rcases he with he | he
    · simp only [eraseScanAll, eraseScan_eq_none hit _ ⟨e, he, hp⟩]
    · simp only [eraseScanAll, ih ⟨e, he, hp⟩]
      cases eraseScan hit vx.edges <;> rfl

/-- The inner loop returns only when nothing is hit, and then the list is as it was. -/
theorem eraseScan_eq_some (hit : DigraphEdge E → Bool) (l l' : List (DigraphEdge E))
    (h : eraseScan hit l = some l') : l' = l ∧ ∀ e ∈ l, hit e = false := by
  induction l generalizing l' with
  | nil =>
    simp only [eraseScan, Option.some.injEq] at h
    subst h
    simp
  | cons e es ih =>
    cases hhit : hit e with
    | true => simp [eraseScan, hhit] at h
    | false =>
      cases hes : eraseScan hit es with
      | none => simp [eraseScan, hhit, hes] at h
      | some es' =>
        simp [eraseScan, hhit, hes] at h
        obtain ⟨h1, h2⟩ := ih es' hes
        subst h
        subst h1
        refine ⟨rfl, ?_⟩
        intro e' he'
        rcases List.mem_cons.1 he' with h | h
        · subst h; exact hhit
        · exact h2 e' h

/-- The double loop returns only when nothing is hit, and then the map is as it was. -/
theorem eraseScanAll_eq_some (hit : DigraphEdge E → Bool) (m m' : IntMap (DigraphVertex V E))
    (h : eraseScanAll hit m = some m') : m' = m ∧ ∀ e ∈ storedEdges m, hit e = false := by
  induction m generalizing m' with
  | nil =>
    simp only [eraseScanAll, Option.some.injEq] at h
    subst h
    simp [storedEdges]
  | cons p rest ih =>
    obtain ⟨k, vx⟩ := p
    cases hes : eraseScan hit vx.edges with
    | none => simp [eraseScanAll, hes] at h
    | some es =>
      cases hr : eraseScanAll hit rest with
      | none => simp [eraseScanAll, hes, hr] at h
      | some rest' =>
        simp [eraseScanAll, hes, hr] at h
        obtain ⟨h1, h2⟩ := eraseScan_eq_some hit _ _ hes
        obtain ⟨h3, h4⟩ := ih rest' hr
        subst h
        subst h1
        subst h3
        refine ⟨rfl, ?_⟩
        intro e he
        simp only [storedEdges, List.mem_append] at he
        rcases he with he | he
        · exact h2 e he
        · exact h4 e he

/-- Whenever both end points are vertices and the pair is stored, the loops of `removeEdge`
reach the stored edge, erase it and increment the erased iterator. -/
theorem removeEdge_present_undefined (g : Digraph V E) (a b : Int)
    (ha : a ∈ g.vertices) (hb : b ∈ g.vertices) (hab : (a, b) ∈ g.edges) :
    g.removeEdge a b = .undefined := by
  have hv : ¬ ((g.ImTheMap.find a).isNone ∨ (g.ImTheMap.find b).isNone) := by
    have hsa := (IntMap.find_isSome_iff _ _).2 ha
    have hsb := (IntMap.find_isSome_iff _ _).2 hb
    intro h
    rcases h with h | h
    · rw [Option.isNone_iff_eq_none] at h; simp [h] at hsa
    · rw [Option.isNone_iff_eq_none] at h; simp [h] at hsb
  have hex : ∃ e ∈ storedEdges g.ImTheMap, e.toVertex = b ∧ e.fromVertex = a := by
    simp only [edges, List.mem_map] at hab
    obtain ⟨e, he, hp⟩ := hab
    refine ⟨e, he, ?_, ?_⟩
    · exact (Prod.mk.inj hp).2
    · exact (Prod.mk.inj hp).1
  simp only [removeEdge]
  obtain ⟨e, he, hp⟩ := hex
  rw [if_neg hv, if_neg (by simpa using hab),
    eraseScanAll_eq_none _ _ ⟨e, he, by simpa using hp⟩]

/-- C13 (the code departs from it): on the graph with vertices 0, 1 and the edge 0->1, built
by the public operations, `removeEdge(0, 1)` passes both checks, finds the edge in the list
of vertex 0, erases it through the loop iterator and then increments that iterator: the call
has no defined result, it does not succeed. -/
theorem C13_removeEdge_present_edge :
    build arrowCalls = .ok arrowGraph ∧
    ((0 : Int), (1 : Int)) ∈ arrowGraph.edges ∧
    arrowGraph.removeEdge 0 1 = .undefined := by
  refine ⟨by decide, by decide, by decide⟩

/-- C14: for every graph, `removeEdge(a, b)` raises the unknown-vertex `DigraphException`
when `a` or `b` is not a vertex, and the unknown-edge one when both are vertices and the
pair `(a, b)` is not stored; in both cases the graph at that point is the very graph before
the call, so that `edgeCount()` is as before. -/
theorem C14_removeEdge_failures (g : Digraph V E) (a b : Int) :
    ((a ∉ g.vertices ∨ b ∉ g.vertices) →
      ∃ g', g.removeEdge a b = .thrown .unknownVertex g' ∧ g' = g ∧
        g'.edgeCount = g.edgeCount) ∧
    (a ∈ g.vertices → b ∈ g.vertices → (a, b) ∉ g.edges →
      ∃ g', g.removeEdge a b = .thrown .unknownEdge g' ∧ g' = g ∧
        g'.edgeCount = g.edgeCount) := by
  constructor
  · intro h
    have hv : (g.ImTheMap.find a).isNone ∨ (g.ImTheMap.find b).isNone := by
      rcases h with h | h
      · exact Or.inl (by rw [(IntMap.find_eq_none_iff _ _).2 h]; rfl)
      · exact Or.inr (by rw [(IntMap.find_eq_none_iff _ _).2 h]; rfl)
    refine ⟨g, ?_, rfl, rfl⟩
    simp only [removeEdge]
    rw [if_pos hv]
  · intro ha hb hab
    have hv : ¬ ((g.ImTheMap.find a).isNone ∨ (g.ImTheMap.find b).isNone) := by
      have hsa := (IntMap.find_isSome_iff _ _).2 ha
      have hsb := (IntMap.find_isSome_iff _ _).2 hb
      intro h
      rcases h with h | h
      · rw [Option.isNone_iff_eq_none] at h; simp [h] at hsa
      · rw [Option.isNone_iff_eq_none] at h; simp [h] at hsb
    refine ⟨g, ?_, rfl, rfl⟩
    simp only [removeEdge]
    rw [if_neg hv, if_pos hab]

/-- Witness for C14: on the graph 0->1, `removeEdge(0, 5)` names an absent key and
`removeEdge(1, 0)` names a pair that was never added. -/
theorem C14_removeEdge_failures_witness :
    (((0 : Int) ∉ arrowGraph.vertices ∨ (5 : Int) ∉ arrowGraph.vertices) ∧
      ∃ g', arrowGraph.removeEdge 0 5 = .thrown .unknownVertex g' ∧ g' = arrowGraph ∧
        g'.edgeCount = arrowGraph.edgeCount) ∧
    ((1 : Int) ∈ arrowGraph.vertices ∧ (0 : Int) ∈ arrowGraph.vertices ∧
      ((1 : Int), (0 : Int)) ∉ arrowGraph.edges ∧
      ∃ g', arrowGraph.removeEdge 1 0 = .thrown .unknownEdge g' ∧ g' = arrowGraph ∧
        g'.edgeCount = arrowGraph.edgeCount) :=
  ⟨⟨by decide, (C14_removeEdge_failures arrowGraph 0 5).1 (by decide)⟩,
   ⟨by decide, by decide, by decide,
    (C14_removeEdge_failures arrowGraph 1 0).2 (by decide) (by decide) (by decide)⟩⟩

/-- C15: for every graph and every key `v` that is not a vertex of it, `removeVertex(v)`
raises the unknown-vertex `DigraphException` before either loop runs, and the graph at that
point is the very graph before the call: no vertex and no edge has been removed. -/
theorem C15_removeVertex_unknown (g : Digraph V E) (v : Int) (h : v ∉ g.vertices) :
    ∃ g', g.removeVertex v = .thrown .unknownVertex g' ∧
      g' = g ∧
      g'.vertices = g.vertices ∧
      g'.edges = g.edges := by
  refine ⟨g, ?_, rfl, rfl, rfl⟩
  simp [removeVertex, (IntMap.find_eq_none_iff _ _).2 h]

/-- Witness for C15: `removeVertex(5)` on the graph 0->1. -/
theorem C15_removeVertex_unknown_witness :
    (5 : Int) ∉ arrowGraph.vertices ∧
    ∃ g', arrowGraph.removeVertex 5 = .thrown .unknownVertex g' ∧
      g' = arrowGraph ∧
      g'.vertices = arrowGraph.vertices ∧
      g'.edges = arrowGraph.edges :=
  ⟨by decide, C15_removeVertex_unknown arrowGraph 5 (by decide)⟩

/-! ## The graphs built by the public operations are well formed -/

theorem mem_storedEdges (m : IntMap (DigraphVertex V E)) (e : DigraphEdge E) :
    e ∈ storedEdges m ↔ ∃ p ∈ m, e ∈ p.2.edges := by
  induction m with
  | nil => simp [storedEdges]
  | cons p rest ih =>
    obtain ⟨k, vx⟩ := p
    simp [storedEdges, ih]

theorem IntMap.mem_insert {T : Type} (m : IntMap T) (k : Int) (x : T) (p : Int × T)
    (h : p ∈ m.insert k x) : p = (k, x) ∨ p ∈ m := by
  induction m with
  | nil => simpa [IntMap.insert] using h
  | cons q rest ih =>
    obtain ⟨k', y⟩ := q
    by_cases hlt : k < k'
    · simp only [IntMap.insert, hlt, if_true, List.mem_cons] at h
      rcases h with h | h | h
      · exact Or.inl h
      · exact Or.inr (List.mem_cons.2 (Or.inl h))
      · exact Or.inr (List.mem_cons.2 (Or.inr h))
    · by_cases he : k = k'
      · subst he
        simp only [IntMap.insert, lt_irrefl, if_true, if_false] at h
        exact Or.inr h
      · simp only [IntMap.insert, hlt, he, if_false, List.mem_cons] at h
        rcases h with h | h
        · exact Or.inr (List.mem_cons.2 (Or.inl h))
        · rcases ih h with h' | h'
          · exact Or.inl h'
          · exact Or.inr (List.mem_cons.2 (Or.inr h'))

theorem IntMap.ordered_insert {T : Type} (m : IntMap T) (k : Int) (x : T)
    (h : m.Ordered) : (m.insert k x).Ordered := by
  induction m with
  | nil => simp [IntMap.insert, IntMap.Ordered]
  | cons q rest ih =>
    obtain ⟨k', y⟩ := q
    have hq : (∀ a ∈ rest.map Prod.fst, k' < a) ∧ IntMap.Ordered rest := by
      simpa [IntMap.Ordered, List.pairwise_cons] using h
    by_cases hlt : k < k'
    · simp only [IntMap.insert, hlt, if_true, IntMap.Ordered, List.map_cons, List.pairwise_cons]
      refine ⟨?_, ?_⟩
      · intro a ha
        rcases List.mem_cons.1 ha with ha | ha
        · rw [ha]; exact hlt
        · exact lt_trans hlt (hq.1 a ha)
      · simpa [IntMap.Ordered, List.pairwise_cons] using h
    · by_cases he : k = k'
      · simpa [IntMap.insert, hlt, he] using h
      · have hgt : k' < k := lt_of_le_of_ne (not_lt.1 hlt) (fun e => he e.symm)
        simp only [IntMap.insert, hlt, he, if_false, IntMap.Ordered, List.map_cons,
          List.pairwise_cons]
        refine ⟨?_, ih hq.2⟩
        intro a ha
        obtain ⟨p, hp, rfl⟩ := List.mem_map.1 ha
        rcases IntMap.mem_insert rest k x p hp with h' | h'
        · rw [h']; exact hgt
        · exact hq.1 _ (List.mem_map.2 ⟨p, h', rfl⟩)

theorem IntMap.mem_modify {T : Type} (m : IntMap T) (k : Int) (f : T → T) (p : Int × T)
    (h : p ∈ m.modify k f) : p ∈ m ∨ ∃ y, (k, y) ∈ m ∧ p = (k, f y) := by
  induction m with
  | nil => simp [IntMap.modify] at h
  | cons q rest ih =>
    obtain ⟨k', y⟩ := q
    by_cases hk : k' = k
    · simp only [IntMap.modify, hk, if_true, List.mem_cons] at h
      rcases h with h | h
      · exact Or.inr ⟨y, by rw [hk]; exact List.mem_cons_self _ _, h⟩
      · exact Or.inl (List.mem_cons.2 (Or.inr h))
    · simp only [IntMap.modify, hk, if_false, List.mem_cons] at h
      rcases h with h | h
      · exact Or.inl (List.mem_cons.2 (Or.inl h))
      · rcases ih h with h' | ⟨z, hz, hp⟩
        · exact Or.inl (List.mem_cons.2 (Or.inr h'))
        · exact Or.inr ⟨z, List.mem_cons.2 (Or.inr hz), hp⟩

theorem IntMap.erase_sublist {T : Type} (m : IntMap T) (k : Int) :
    List.Sublist (m.erase k) m := by
  induction m with
  | nil => simp [IntMap.erase]
  | cons q rest ih =>
    obtain ⟨k', y⟩ := q
    by_cases hk : k' = k
    · simp [IntMap.erase, hk]
    · simp only [IntMap.erase, hk, if_false]
      exact List.Sublist.cons₂ _ ih

theorem storedEdges_erase_sublist (m : IntMap (DigraphVertex V E)) (k : Int) :
    List.Sublist (storedEdges (m.erase k)) (storedEdges m) := by
  induction m with
  | nil => simp [IntMap.erase]
  | cons q rest ih =>
    obtain ⟨k', y⟩ := q
    by_cases hk : k' = k
    · simp only [IntMap.erase, hk, if_true, storedEdges]
      exact List.sublist_append_right _ _
    · simp only [IntMap.erase, hk, if_false, storedEdges]
      exact List.Sublist.append (List.Sublist.refl _) ih

theorem IntMap.find_erase_ne {T : Type} (m : IntMap T) (k u : Int) (h : u ≠ k) :
    (m.erase k).find u = m.find u := by
  induction m with
  | nil => simp [IntMap.erase]
  | cons q rest ih =>
    obtain ⟨k', y⟩ := q
    by_cases hk : k' = k
    · have hu : ¬ k = u := fun e => h e.symm
      simp [IntMap.erase, hk, IntMap.find, hu]
    · simp [IntMap.erase, hk, IntMap.find, ih]

/-- In an ordered map every entry is the one `find` returns for its key. -/
theorem IntMap.find_of_mem {T : Type} (m : IntMap T) (h : m.Ordered) (p : Int × T)
    (hp : p ∈ m) : m.find p.1 = some p.2 := by
  induction m with
  | nil => simp at hp
  | cons q rest ih =>
    obtain ⟨k', y⟩ := q
    have hq : (∀ a ∈ rest.map Prod.fst, k' < a) ∧ IntMap.Ordered rest := by
      simpa [IntMap.Ordered, List.pairwise_cons] using h
    rcases List.mem_cons.1 hp with hp | hp
    · subst hp
      simp [IntMap.find]
    · have hlt : k' < p.1 := hq.1 _ (List.mem_map.2 ⟨p, hp, rfl⟩)
      have hne : ¬ k' = p.1 := ne_of_lt hlt
      simp [IntMap.find, hne, ih hq.2 hp]

/-- An entry `find` returns is an entry of the map. -/
theorem IntMap.mem_of_find {T : Type} (m : IntMap T) (k : Int) (x : T)
    (h : m.find k = some x) : (k, x) ∈ m := by
  induction m with
  | nil => simp [IntMap.find] at h
  | cons q rest ih =>
    obtain ⟨k', y⟩ := q
    by_cases hk : k' = k
    · simp only [IntMap.find, hk, if_true, Option.some.injEq] at h
      rw [hk, h]
      exact List.mem_cons_self _ _
    · simp only [IntMap.find, hk, if_false] at h
      exact List.mem_cons.2 (Or.inr (ih h))

theorem find_isNone_or_iff (g : Digraph V E) (a b : Int) :
    ¬ ((g.ImTheMap.find a).isNone ∨ (g.ImTheMap.find b).isNone) ↔
      a ∈ g.vertices ∧ b ∈ g.vertices := by
  unfold vertices
  rw [← IntMap.find_isSome_iff, ← IntMap.find_isSome_iff]
  cases g.ImTheMap.find a <;> cases g.ImTheMap.find b <;> simp

/-- What a returning `addVertex` has done. -/
theorem addVertex_eq_ok (g g' : Digraph V E) (v : Int) (info : V)
    (h : g.addVertex v info = .ok g') :
    g.ImTheMap.find v = none ∧ g' = ⟨g.ImTheMap.insert v ⟨info, []⟩⟩ := by
  unfold addVertex at h
  cases hf : g.ImTheMap.find v with
  | some x => simp [hf] at h
  | none =>
    simp only [hf, Option.isSome_none, Bool.false_eq_true, if_false, Outcome.ok.injEq] at h
    exact ⟨rfl, h.symm⟩

/-- What a returning `addEdge` has done. -/
theorem addEdge_eq_ok (g g' : Digraph V E) (a b : Int) (info : E)
    (h : g.addEdge a b info = .ok g') :
    a ∈ g.vertices ∧ b ∈ g.vertices ∧ (a, b) ∉ g.edges ∧
      g' = ⟨g.ImTheMap.modify a (pushBack ⟨a, b, info⟩)⟩ := by
  unfold addEdge at h
  by_cases hv : (g.ImTheMap.find a).isNone ∨ (g.ImTheMap.find b).isNone
  · rw [if_pos hv] at h; cases h
  · rw [if_neg hv] at h
    cases hany : (storedEdges g.ImTheMap).any
        (fun e => decide (e.fromVertex = a ∧ e.toVertex = b)) with
    | true => rw [hany] at h; simp at h
    | false =>
      rw [hany] at h
      simp only [Bool.false_eq_true, if_false, Outcome.ok.injEq] at h
      obtain ⟨ha, hb⟩ := (find_isNone_or_iff g a b).1 hv
      refine ⟨ha, hb, ?_, h.symm⟩
      intro hmem
      simp only [edges, List.mem_map] at hmem
      obtain ⟨e, he, hp⟩ := hmem
      rw [List.any_eq_false] at hany
      have := hany e he
      simp only [decide_eq_true_eq] at this
      exact this ⟨(Prod.mk.inj hp).1, (Prod.mk.inj hp).2⟩

/-- What a returning `removeVertex` has done: no stored edge pointed to the vertex. -/
theorem removeVertex_eq_ok (g g' : Digraph V E) (v : Int)
    (h : g.removeVertex v = .ok g') :
    (∀ e ∈ storedEdges g.ImTheMap, e.toVertex ≠ v) ∧ g' = ⟨g.ImTheMap.erase v⟩ := by
  unfold removeVertex at h
  by_cases hv : (g.ImTheMap.find v).isNone
  · rw [if_pos hv] at h; cases h
  · rw [if_neg hv] at h
    cases hs : eraseScanAll (fun e => decide (e.toVertex = v)) g.ImTheMap with
    | none => rw [hs] at h; cases h
    | some m =>
      rw [hs] at h
      simp only [Outcome.ok.injEq] at h
      obtain ⟨h1, h2⟩ := eraseScanAll_eq_some _ _ _ hs
      subst h1
      refine ⟨?_, h.symm⟩
      intro e he
      simpa using h2 e he

/-- A returning `removeEdge` would have left the graph as it was. -/
theorem removeEdge_eq_ok (g g' : Digraph V E) (a b : Int)
    (h : g.removeEdge a b = .ok g') : g' = g := by
  unfold removeEdge at h
  by_cases hv : (g.ImTheMap.find a).isNone ∨ (g.ImTheMap.find b).isNone
  · rw [if_pos hv] at h; cases h
  · rw [if_neg hv] at h
    by_cases hab : (a, b) ∉ g.edges
    · rw [if_pos hab] at h; cases h
    · rw [if_neg hab] at h
      cases hs : eraseScanAll (fun e => decide (e.toVertex = b ∧ e.fromVertex = a))
          g.ImTheMap with
      | none => rw [hs] at h; cases h
      | some m =>
        rw [hs] at h
        simp only [Outcome.ok.injEq] at h
        obtain ⟨h1, _⟩ := eraseScanAll_eq_some _ _ _ hs
        subst h1
        exact h.symm

/-- Every `throw` of the four mutating members comes before any mutation. -/
theorem run_thrown_eq (c : Call V E) (g g' : Digraph V E) (e : Failure)
    (h : c.run g = .thrown e g') : g' = g := by
  cases c with
  | addVertex v info =>
    simp only [Call.run, addVertex] at h
    split at h
    · simp only [Outcome.thrown.injEq] at h; exact h.2.symm
    · cases h
  | addEdge a b info =>
    simp only [Call.run, addEdge] at h
    split at h
    · simp only [Outcome.thrown.injEq] at h; exact h.2.symm
    · split at h
      · simp only [Outcome.thrown.injEq] at h; exact h.2.symm
      · cases h
  | removeVertex v =>
    simp only [Call.run, removeVertex] at h
    split at h
    · simp only [Outcome.thrown.injEq] at h; exact h.2.symm
    · split at h <;> cases h
  | removeEdge a b =>
    simp only [Call.run, removeEdge] at h
    split at h
    · simp only [Outcome.thrown.injEq] at h; exact h.2.symm
    · split at h
      · simp only [Outcome.thrown.injEq] at h; exact h.2.symm
      · split at h <;> cases h

theorem wellFormed_empty : WellFormed (empty : Digraph V E) := by
  refine ⟨?_, ?_, ?_, ?_⟩
  · simp [empty, IntMap.Ordered]
  · simp [empty]
  · simp [empty, storedEdges]
  · simp [empty, edges, storedEdges]

theorem wellFormed_addVertex (g g' : Digraph V E) (v : Int) (info : V)
    (hg : WellFormed g) (h : g.addVertex v info = .ok g') : WellFormed g' := by
  obtain ⟨hnone, rfl⟩ := addVertex_eq_ok g g' v info h
  refine ⟨IntMap.ordered_insert _ _ _ hg.ordered, ?_, ?_, ?_⟩
  · intro p hp e he
    rcases IntMap.mem_insert _ _ _ _ hp with h' | h'
    · subst h'; simp at he
    · exact hg.own p h' e he
  · intro e he
    simp only [storedEdges_insert] at he
    have hmem := hg.closed e he
    simp only [vertices] at hmem ⊢
    rw [← IntMap.find_isSome_iff] at hmem ⊢
    have hne : e.toVertex ≠ v := by
      intro heq
      rw [heq, hnone] at hmem
      simp at hmem
    rw [IntMap.find_insert_ne _ _ _ _ hne]
    exact hmem
  · simpa [edges, storedEdges_insert] using hg.nodup

theorem wellFormed_addEdge (g g' : Digraph V E) (a b : Int) (info : E)
    (hg : WellFormed g) (h : g.addEdge a b info = .ok g') : WellFormed g' := by
  obtain ⟨ha, hb, hab, rfl⟩ := addEdge_eq_ok g g' a b info h
  have hsa : (g.ImTheMap.find a).isSome := (IntMap.find_isSome_iff _ _).2 ha
  obtain ⟨l₁, l₂, hl, hl'⟩ := storedEdges_modify_pushBack g.ImTheMap a ⟨a, b, info⟩ hsa
  refine ⟨?_, ?_, ?_, ?_⟩
  · simpa [IntMap.Ordered, IntMap.keys_modify] using hg.ordered
  · intro p hp e he
    rcases IntMap.mem_modify _ _ _ _ hp with h' | ⟨y, hy, h'⟩
    · exact hg.own p h' e he
    · subst h'
      simp only [pushBack, List.mem_append, List.mem_singleton] at he
      rcases he with he | he
      · exact hg.own (a, y) hy e he
      · rw [he]
  · intro e he
    simp only [vertices, IntMap.keys_modify]
    rw [hl'] at he
    rcases List.mem_append.1 he with he | he
    · exact hg.closed e (by rw [hl]; exact List.mem_append_left _ he)
    · rcases List.mem_cons.1 he with he | he
      · rw [he]; exact hb
      · exact hg.closed e (by rw [hl]; exact List.mem_append_right _ he)
  · have hn := hg.nodup
    simp only [edges, hl, hl', List.map_append, List.map_cons] at hn hab ⊢
    rw [List.nodup_middle]
    exact List.nodup_cons.2 ⟨hab, hn⟩

theorem wellFormed_removeVertex (g g' : Digraph V E) (v : Int)
    (hg : WellFormed g) (h : g.removeVertex v = .ok g') : WellFormed g' := by
  obtain ⟨hno, rfl⟩ := removeVertex_eq_ok g g' v h
  refine ⟨?_, ?_, ?_, ?_⟩
  · exact List.Pairwise.sublist ((IntMap.erase_sublist g.ImTheMap v).map Prod.fst) hg.ordered
  · intro p hp e he
    exact hg.own p ((IntMap.erase_sublist g.ImTheMap v).subset hp) e he
  · intro e he
    have he' := (storedEdges_erase_sublist g.ImTheMap v).subset he
    have hmem := hg.closed e he'
    simp only [vertices] at hmem ⊢
    rw [← IntMap.find_isSome_iff] at hmem ⊢
    rw [IntMap.find_erase_ne _ _ _ (hno e he')]
    exact hmem
  · exact List.Nodup.sublist ((storedEdges_erase_sublist g.ImTheMap v).map _) hg.nodup

/-- Every graph built by the public operations is well formed. -/
theorem wellFormed_of_built (g : Digraph V E) (h : Built g) : WellFormed g := by
  induction h with
  | empty => exact wellFormed_empty
  | ok c hb hrun ih =>
    cases c with
    | addVertex v info => exact wellFormed_addVertex _ _ v info ih hrun
    | addEdge a b info => exact wellFormed_addEdge _ _ a b info ih hrun
    | removeVertex v => exact wellFormed_removeVertex _ _ v ih hrun
    | removeEdge a b =>
      have := removeEdge_eq_ok _ _ a b hrun
      rw [this]; exact ih
  | thrown c hb hrun ih =>
    have := run_thrown_eq c _ _ _ hrun
    rw [this]; exact ih

/-- Both end points of a stored edge of a well-formed graph are vertices. -/
theorem WellFormed.endpoints (g : Digraph V E) (hg : WellFormed g) (p : Int × Int)
    (hp : p ∈ g.edges) : p.1 ∈ g.vertices ∧ p.2 ∈ g.vertices := by
  simp only [edges, List.mem_map] at hp
  obtain ⟨e, he, rfl⟩ := hp
  refine ⟨?_, hg.closed e he⟩
  obtain ⟨q, hq, heq⟩ := (mem_storedEdges _ _).1 he
  simp only [vertices]
  rw [hg.own q hq e heq]
  exact List.mem_map.2 ⟨q, hq, rfl⟩

/-- The graph 0->1 is built by the public operations. -/
theorem built_arrowGraph : Built arrowGraph := by
  have h0 : Built (⟨[(0, ⟨10, []⟩)]⟩ : Digraph Nat Nat) :=
    Built.ok (.addVertex 0 10) Built.empty (by decide)
  have h1 : Built (⟨[(0, ⟨10, []⟩), (1, ⟨11, []⟩)]⟩ : Digraph Nat Nat) :=
    Built.ok (.addVertex 1 11) h0 (by decide)
  exact Built.ok (.addEdge 0 1 7) h1 (by decide)

/-- The graph left by the calls addVertex(0), addVertex(1), addEdge(0, 1), a second
addEdge(0, 1) that throws, and removeVertex(0) is built by the public operations. -/
theorem built_afterRemoval : Built (⟨[(1, ⟨11, []⟩)]⟩ : Digraph Nat Nat) := by
  have h : Built arrowGraph :=
    @Built.thrown Nat Nat (.addEdge 0 1 9) arrowGraph arrowGraph .duplicateEdge
      built_arrowGraph (by decide)
  exact Built.ok (.removeVertex 0) h (by decide)

/-- C12: for every graph built by the public operations that contains the edge `(a, b)`,
`addEdge(a, b, info)` raises the duplicate-edge `DigraphException`, and the graph at that
point is the very graph before the call: `edgeCount()` is as before and `edgeInfo(a, b)`
returns the payload it returned before, not `info`. -/
theorem C12_addEdge_duplicate (g : Digraph V E) (a b : Int) (info : E)
    (hg : Built g) (hab : (a, b) ∈ g.edges) :
    ∃ g', g.addEdge a b info = .thrown .duplicateEdge g' ∧
      g' = g ∧
      g'.edgeCount = g.edgeCount ∧
      ∃ x, g.edgeInfo a b = .ok x ∧ g'.edgeInfo a b = .ok x := by
  have hwf := wellFormed_of_built g hg
  obtain ⟨ha, hb⟩ := WellFormed.endpoints g hwf (a, b) hab
  have hv := (find_isNone_or_iff g a b).2 ⟨ha, hb⟩
  simp only [edges, List.mem_map] at hab
  obtain ⟨e, he, hp⟩ := hab
  have hpe : e.fromVertex = a ∧ e.toVertex = b := ⟨(Prod.mk.inj hp).1, (Prod.mk.inj hp).2⟩
  have hany : (storedEdges g.ImTheMap).any
      (fun e => decide (e.fromVertex = a ∧ e.toVertex = b)) = true := by
    rw [List.any_eq_true]
    exact ⟨e, he, by simpa using hpe⟩
  have hpos : g.ImTheMap.length ≠ 0 := by
    intro h0
    have : g.ImTheMap = [] := List.length_eq_zero.1 h0
    rw [this] at he
    simp [storedEdges] at he
  refine ⟨g, ?_, rfl, rfl, ?_⟩
  · simp only [addEdge]
    rw [if_neg hv, hany]
    simp
  · cases hf : (storedEdges g.ImTheMap).find?
        (fun e => decide (e.fromVertex = a ∧ e.toVertex = b)) with
    | none =>
      rw [List.find?_eq_none] at hf
      have := hf e he
      simp only [decide_eq_true_eq] at this
      exact absurd hpe this
    | some e' =>
      refine ⟨e'.einfo, ?_, ?_⟩ <;>
      · simp only [edgeInfo]
        rw [if_neg hpos, if_neg hv, hf]

/-- Witness for C12: adding the edge 0->1 again, with another payload, to the graph 0->1. -/
theorem C12_addEdge_duplicate_witness :
    Built arrowGraph ∧ ((0 : Int), (1 : Int)) ∈ arrowGraph.edges ∧
    ∃ g', arrowGraph.addEdge 0 1 9 = .thrown .duplicateEdge g' ∧
      g' = arrowGraph ∧
      g'.edgeCount = arrowGraph.edgeCount ∧
      ∃ x, arrowGraph.edgeInfo 0 1 = .ok x ∧ g'.edgeInfo 0 1 = .ok x :=
  ⟨built_arrowGraph, by decide,
    C12_addEdge_duplicate arrowGraph 0 1 9 built_arrowGraph (by decide)⟩

/-- C16: in every graph reached from the empty graph by calls of `addVertex`, `addEdge`,
`removeVertex` and `removeEdge`, returning or throwing, no ordered pair `(from, to)` is
stored twice and both end points of every stored edge are vertices of the graph. -/
theorem C16_built_no_duplicate_no_dangling (g : Digraph V E) (h : Built g) :
    g.edges.Nodup ∧ ∀ p ∈ g.edges, p.1 ∈ g.vertices ∧ p.2 ∈ g.vertices := by
  have hwf := wellFormed_of_built g h
  exact ⟨hwf.nodup, fun p hp => WellFormed.endpoints g hwf p hp⟩

/-- Witness for C16: the graph left after a throwing `addEdge` and a `removeVertex`. -/
theorem C16_built_no_duplicate_no_dangling_witness :
    Built (⟨[(1, ⟨11, []⟩)]⟩ : Digraph Nat Nat) ∧
    (⟨[(1, ⟨11, []⟩)]⟩ : Digraph Nat Nat).edges.Nodup ∧
    ∀ p ∈ (⟨[(1, ⟨11, []⟩)]⟩ : Digraph Nat Nat).edges,
      p.1 ∈ (⟨[(1, ⟨11, []⟩)]⟩ : Digraph Nat Nat).vertices ∧
      p.2 ∈ (⟨[(1, ⟨11, []⟩)]⟩ : Digraph Nat Nat).vertices :=
  ⟨built_afterRemoval, C16_built_no_duplicate_no_dangling _ built_afterRemoval⟩

/-- In a well-formed map the stored edges whose `fromVertex` is `v` are the list of `v`. -/
theorem filter_storedEdges_eq (m : IntMap (DigraphVertex V E)) (hord : m.Ordered)
    (hown : ∀ p ∈ m, ∀ e ∈ p.2.edges, e.fromVertex = p.1) (v : Int) (vx : DigraphVertex V E)
    (hf : m.find v = some vx) :
    (storedEdges m).filter (fun e => decide (e.fromVertex = v)) = vx.edges := by
  induction m with
  | nil => simp [IntMap.find] at hf
  | cons q rest ih =>
    obtain ⟨k, y⟩ := q
    have hq : (∀ a ∈ rest.map Prod.fst, k < a) ∧ IntMap.Ordered rest := by
      simpa [IntMap.Ordered, List.pairwise_cons] using hord
    have hownr : ∀ p ∈ rest, ∀ e ∈ p.2.edges, e.fromVertex = p.1 :=
      fun p hp => hown p (List.mem_cons.2 (Or.inr hp))
    have hhead : ∀ e ∈ y.edges, e.fromVertex = k :=
      fun e he => hown (k, y) (List.mem_cons_self _ _) e he
    simp only [storedEdges, List.filter_append]
    by_cases hk : k = v
    · subst hk
      simp only [IntMap.find, if_true, Option.some.injEq] at hf
      subst hf
      have h1 : y.edges.filter (fun e => decide (e.fromVertex = k)) = y.edges := by
        rw [List.filter_eq_self]
        intro e he
        simpa using hhead e he
      have h2 : (storedEdges rest).filter (fun e => decide (e.fromVertex = k)) = [] := by
        rw [List.filter_eq_nil_iff]
        intro e he
        obtain ⟨p, hp, hep⟩ := (mem_storedEdges _ _).1 he
        have hlt : k < p.1 := hq.1 _ (List.mem_map.2 ⟨p, hp, rfl⟩)
        have := hownr p hp e hep
        simp only [decide_eq_true_eq]
        rw [this]
        exact ne_of_gt hlt
      rw [h1, h2, List.append_nil]
    · simp only [IntMap.find, hk, if_false] at hf
      have h1 : y.edges.filter (fun e => decide (e.fromVertex = v)) = [] := by
        rw [List.filter_eq_nil_iff]
        intro e he
        simp only [decide_eq_true_eq]
        rw [hhead e he]
        exact hk
      rw [h1, List.nil_append]
      exact ih hq.2 hownr hf

/-- C17: for every graph built by the public operations and every vertex `v` of it,
`edges(v)` returns exactly the pairs of `edges()` whose first component is `v`, in the same
order, `edgeCount(v)` is the number of these pairs, and every stored edge sits in the list
of its own `fromVertex`. -/
theorem C17_out_degree_matches_edges (g : Digraph V E) (v : Int)
    (hg : Built g) (hv : v ∈ g.vertices) :
    (∃ l, g.edgesOf v = .ok l ∧ g.edgeCountOf v = .ok l.length ∧
      l = g.edges.filter (fun p => p.1 = v)) ∧
    ∀ p ∈ g.ImTheMap, ∀ e ∈ p.2.edges, e.fromVertex = p.1 := by
  have hwf := wellFormed_of_built g hg
  refine ⟨?_, hwf.own⟩
  have hsome : (g.ImTheMap.find v).isSome := (IntMap.find_isSome_iff _ _).2 hv
  cases hf : g.ImTheMap.find v with
  | none => rw [hf] at hsome; cases hsome
  | some vx =>
    have hpos : g.ImTheMap.length ≠ 0 := by
      intro h0
      have : g.ImTheMap = [] := List.length_eq_zero.1 h0
      rw [this] at hf
      simp [IntMap.find] at hf
    have hfil := filter_storedEdges_eq g.ImTheMap hwf.ordered hwf.own v vx hf
    refine ⟨((storedEdges g.ImTheMap).filter (fun e => decide (e.fromVertex = v))).map
      (fun e => (e.fromVertex, e.toVertex)), ?_, ?_, ?_⟩
    · simp only [edgesOf]
      rw [if_neg hpos]
      simp [hf]
    · simp only [edgeCountOf, hf, List.length_map, hfil]
    · simp only [edges, List.filter_map]
      rfl

/-- Witness for C17: vertex 0 of the graph 0->1. -/
theorem C17_out_degree_matches_edges_witness :
    Built arrowGraph ∧ (0 : Int) ∈ arrowGraph.vertices ∧
    (∃ l, arrowGraph.edgesOf 0 = .ok l ∧ arrowGraph.edgeCountOf 0 = .ok l.length ∧
      l = arrowGraph.edges.filter (fun p => p.1 = 0)) ∧
    ∀ p ∈ arrowGraph.ImTheMap, ∀ e ∈ p.2.edges, e.fromVertex = p.1 :=
  ⟨built_arrowGraph, by decide,
    C17_out_degree_matches_edges arrowGraph 0 built_arrowGraph (by decide)⟩

theorem sumOk_lengths (m : IntMap (DigraphVertex V E)) :
    sumOk (m.map (fun p => (.ok p.2.edges.length : Except Failure Nat)))
      = .ok (storedEdges m).length := by
  induction m with
  | nil => simp [sumOk, storedEdges]
  | cons q rest ih =>
    obtain ⟨k, y⟩ := q
    simp [sumOk, storedEdges, ih]

/-- C18: for every graph, `edgeCount()` is the sum of `edgeCount(v)` over the keys `v` that
`vertices()` returns, none of these calls failing, and is the length of `edges()`. -/
theorem C18_edgeCount_is_sum_of_out_degrees (g : Digraph V E) (h : g.ImTheMap.Ordered) :
    sumOk (g.vertices.map g.edgeCountOf) = .ok g.edgeCount ∧
    g.edgeCount = g.edges.length := by
  constructor
  · have hmap : g.vertices.map g.edgeCountOf
        = g.ImTheMap.map (fun p => (.ok p.2.edges.length : Except Failure Nat)) := by
      simp only [vertices, List.map_map]
      apply List.map_congr_left
      intro p hp
      simp [edgeCountOf, IntMap.find_of_mem g.ImTheMap h p hp]
    rw [hmap, sumOk_lengths, edgeCount_eq_length]
  · simp [edgeCount_eq_length, edges]

/-- Witness for C18: the graph with the edges 0->1, 0->2, 0->3, 1->3, 2->1. -/
theorem C18_edgeCount_is_sum_of_out_degrees_witness :
    detourGraph.ImTheMap.Ordered ∧
    sumOk (detourGraph.vertices.map detourGraph.edgeCountOf) = .ok detourGraph.edgeCount ∧
    detourGraph.edgeCount = detourGraph.edges.length :=
  ⟨by decide, C18_edgeCount_is_sum_of_out_degrees detourGraph (by decide)⟩

/-! ## The start vertex keeps itself as predecessor -/

/-- C20: for every key `v` and payload, on the graph that `addVertex(v, payload)` makes of
the empty graph, with the single vertex `v` and no edge, `findShortestPaths(v, w)` returns
exactly the one-entry map `v -> v`, for every weight function `w`. -/
theorem C20_single_vertex_graph {W : Type} [LinearOrderedRing W] (v : Int) (payload : V)
    (w : E → W) :
    (empty : Digraph V E).addVertex v payload = .ok ⟨[(v, ⟨payload, []⟩)]⟩ ∧
    (⟨[(v, ⟨payload, []⟩)]⟩ : Digraph V E).findShortestPaths v w = .ok [(v, v)] := by
  constructor
  · simp [addVertex, empty, IntMap.find, IntMap.insert]
  · simp [findShortestPaths, initLoop, mainLoop, pqPush, IntMap.assign, IntMap.find]

/-! ## Copies -/

/-- Assigning a graph to itself empties it: the `clear()` comes before the copy. -/
theorem copyAssign_self (s : Store V E) (G : Nat) : (copyAssign s G G) G = ⟨[]⟩ := by
  simp [copyAssign, Store.set]

/-- C21: for every graph object `G` and every other object `H` made a copy of `G`, by the
copy constructor or by copy assignment, `H` holds the same value as `G` held, so that every
query (`vertices`, `edges`, `vertexInfo`, `edgeInfo`, the counts) answers on `H` as on `G`;
`G` itself is not changed by the copy; and after any mutating call on `H`, returning or
throwing, `G` still holds its value, and after any such call on `G`, `H` still holds the
value copied. -/
theorem C21_copy_independence (s : Store V E) (G H : Nat) (hne : H ≠ G) :
    (copyConstruct s H G) H = s G ∧ (copyConstruct s H G) G = s G ∧
    (copyAssign s H G) H = s G ∧ (copyAssign s H G) G = s G ∧
    ∀ s0, (s0 = copyConstruct s H G ∨ s0 = copyAssign s H G) → ∀ c s1,
      ((s0.call H c = .ok s1 ∨ ∃ e, s0.call H c = .thrown e s1) → s1 G = s G ∧ s1 G = s0 G) ∧
      ((s0.call G c = .ok s1 ∨ ∃ e, s0.call G c = .thrown e s1) → s1 H = s G ∧ s1 H = s0 H) := by
  have hne' : G ≠ H := fun e => hne e.symm
  have h1 : (copyConstruct s H G) H = s G := by
    simp [copyConstruct, copyAssign, Store.set, hne']
  have h2 : (copyConstruct s H G) G = s G := by
    simp [copyConstruct, copyAssign, Store.set, hne']
  have h3 : (copyAssign s H G) H = s G := by
    simp [copyAssign, Store.set, hne']
  have h4 : (copyAssign s H G) G = s G := by
    simp [copyAssign, Store.set, hne']
  refine ⟨h1, h2, h3, h4, ?_⟩
  intro s0 hs0 c s1
  have hG : s0 G = s G := by rcases hs0 with h | h <;> rw [h] <;> assumption
  have hH : s0 H = s G := by rcases hs0 with h | h <;> rw [h] <;> assumption
  have frame : ∀ (n m : Nat), m ≠ n →
      (s0.call n c = .ok s1 ∨ ∃ e, s0.call n c = .thrown e s1) → s1 m = s0 m := by
    intro n m hmn hcall
    unfold Store.call at hcall
    cases hrun : c.run (s0 n) with
    | ok g' =>
      rw [hrun] at hcall
      rcases hcall with h | ⟨e, h⟩
      · simp only [Outcome.ok.injEq] at h
        rw [← h]; simp [Store.set, hmn]
      · cases h
    | thrown e' g' =>
      rw [hrun] at hcall
      rcases hcall with h | ⟨e, h⟩
      · cases h
      · simp only [Outcome.thrown.injEq] at h
        rw [← h.2]; simp [Store.set, hmn]
    | undefined =>
      rw [hrun] at hcall
      rcases hcall with h | ⟨e, h⟩ <;> cases h
  constructor
  · intro hcall
    have := frame H G hne' hcall
    exact ⟨this.trans hG, this⟩
  · intro hcall
    have := frame G H hne hcall
    exact ⟨this.trans hH, this⟩

/-- Witness for C21: object 1 made a copy of object 0, which holds the graph 0->1. -/
theorem C21_copy_independence_witness :
    (1 : Nat) ≠ 0 ∧
    (copyConstruct (fun _ => arrowGraph) 1 0) 1 = arrowGraph ∧
    (copyConstruct (fun _ => arrowGraph) 1 0) 0 = arrowGraph ∧
    (copyAssign (fun _ => arrowGraph) 1 0) 1 = arrowGraph ∧
    (copyAssign (fun _ => arrowGraph) 1 0) 0 = arrowGraph ∧
    ∀ s0 : Store Nat Nat, (s0 = copyConstruct (fun _ => arrowGraph) 1 0 ∨
        s0 = copyAssign (fun _ => arrowGraph) 1 0) → ∀ c s1,
      ((s0.call 1 c = .ok s1 ∨ ∃ e, s0.call 1 c = .thrown e s1) →
        s1 0 = arrowGraph ∧ s1 0 = s0 0) ∧
      ((s0.call 0 c = .ok s1 ∨ ∃ e, s0.call 0 c = .thrown e s1) →
        s1 1 = arrowGraph ∧ s1 1 = s0 1) :=
  ⟨by decide, C21_copy_independence (fun _ => arrowGraph) 0 1 (by decide)⟩

/-! ## `INT_MAX` stands for infinity -/

/-- C22 (the code departs from it): on the graph with the vertices 0, 1 and the single edge
0->1 of the finite, non-negative weight 2147483647, built by the public operations,
`findShortestPaths(0, weight)` returns the one-entry map 0->0; vertex 1 is not mapped to 0,
because the candidate 0 + 2147483647 is not less than the initial distance, which is
`INT_MAX` and not infinity.  The run is the same in exact arithmetic and in binary64. -/
theorem C22_weight_INT_MAX_is_no_improvement :
    build (arcCalls 0 1 (2147483647 : Int)) = .ok (arcGraph 0 1 (2147483647 : Int)) ∧
    (0 : Int) ≤ 2147483647 ∧
    (arcGraph 0 1 (2147483647 : Int)).findShortestPaths 0 (fun x : Int => x) = .ok [(0, 0)] ∧
    (¬ ∃ r, (arcGraph 0 1 (2147483647 : Int)).findShortestPaths 0 (fun x : Int => x) = .ok r ∧
      r.find 1 = some 0) ∧
    (arcGraph 0 1 (Binary64.finite 2147483647 0)).findShortestPaths 0
      (fun x : Binary64 => x) = .ok [(0, 0)] := by
  have h : (arcGraph 0 1 (2147483647 : Int)).findShortestPaths 0 (fun x : Int => x)
      = .ok [(0, 0)] := rfl
  refine ⟨by decide, by decide, h, ?_, rfl⟩
  rintro ⟨r, hr, hf⟩
  rw [h] at hr
  simp only [Except.ok.injEq] at hr
  rw [← hr] at hf
  simp [IntMap.find] at hf

/-- Below `INT_MAX` the relaxation does take place: for every non-negative weight `c` below
`INT_MAX` and all keys `s`, `t` with `s != t`, on the graph with the vertices `s`, `t` and
the single edge `s -> t` of weight `c`, `findShortestPaths(s, w)` returns a map that sends
`t` to `s` (the one sum formed, `0 + c`, is exact). -/
theorem arc_weight_below_INT_MAX_improves {W : Type} [LinearOrderedRing W] (s t : Int) (c : W)
    (hst : s ≠ t) (hc : 0 ≤ c) (hlt : c < INT_MAX) :
    build (arcCalls s t c) = .ok (arcGraph s t c) ∧
    ∃ r, (arcGraph s t c).findShortestPaths s (fun x : W => x) = .ok r ∧
      r.find t = some s := by
  have _ := hc
  have hts : ¬ t = s := fun e => hst e.symm
  have hlt' : c < (2147483647 : W) := hlt
  rcases lt_or_gt_of_ne hst with h | h
  · have h' : ¬ t < s := not_lt.2 (le_of_lt h)
    constructor
    · simp [build, arcCalls, arcGraph, Outcome.andThen, addVertex, addEdge, empty,
        IntMap.find, IntMap.insert, IntMap.modify, storedEdges, pushBack, h, h', hst, hts]
    · refine ⟨[(s, s), (t, s)], ?_, ?_⟩
      · simp [arcGraph, findShortestPaths, initLoop, mainLoop, relax, pqPush, IntMap.assign,
          IntMap.find, IntMap.index, IntMap.insert, INT_MAX, exactArith_zero,
          exactArith_add, exactArith_gt, exactArith_intMax, h, h', hst, hts, hlt',
          not_le.2 h]
      · simp [IntMap.find, hst]
  · have h' : ¬ s < t := not_lt.2 (le_of_lt h)
    constructor
    · simp [build, arcCalls, arcGraph, Outcome.andThen, addVertex, addEdge, empty,
        IntMap.find, IntMap.insert, IntMap.modify, storedEdges, pushBack, h, h', hst, hts]
    · refine ⟨[(t, s), (s, s)], ?_, ?_⟩
      · simp [arcGraph, findShortestPaths, initLoop, mainLoop, relax, pqPush, IntMap.assign,
          IntMap.find, IntMap.index, IntMap.insert, INT_MAX, exactArith_zero,
          exactArith_add, exactArith_gt, exactArith_intMax, h, h', hst, hts, hlt',
          not_le.2 h]
      · simp [IntMap.find]

/-- The edge 3->1 of weight 2147483646 is relaxed. -/
theorem arc_weight_below_INT_MAX_improves_example :
    (3 : Int) ≠ 1 ∧ (0 : Int) ≤ 2147483646 ∧ (2147483646 : Int) < INT_MAX ∧
    build (arcCalls 3 1 (2147483646 : Int)) = .ok (arcGraph 3 1 (2147483646 : Int)) ∧
    ∃ r, (arcGraph 3 1 (2147483646 : Int)).findShortestPaths 3 (fun x : Int => x) = .ok r ∧
      r.find 1 = some 3 :=
  ⟨by decide, by decide, by decide,
    arc_weight_below_INT_MAX_improves 3 1 (2147483646 : Int) (by decide) (by decide)
      (by decide)⟩

/-! ## What the degree test of `isStronglyConnected` decides -/

theorem edges_sublist_storedEdges (m : IntMap (DigraphVertex V E)) (p : Int × DigraphVertex V E)
    (hp : p ∈ m) : List.Sublist p.2.edges (storedEdges m) := by
  induction m with
  | nil => simp at hp
  | cons q rest ih =>
    obtain ⟨k, vx⟩ := q
    rcases List.mem_cons.1 hp with h | h
    · subst h
      simp only [storedEdges]
      exact List.sublist_append_left _ _
    · simp only [storedEdges]
      exact (ih h).trans (List.sublist_append_right _ _)

theorem IntMap.nodup_keys {T : Type} (m : IntMap T) (h : m.Ordered) :
    (m.map Prod.fst).Nodup := by
  unfold IntMap.Ordered at h
  exact List.Pairwise.imp (fun hab => ne_of_lt hab) h

/-- In a well-formed graph the out-degree of a vertex is the vertex count exactly when the
vertex has an edge to every vertex. -/
theorem degree_complete_iff (g : Digraph V E) (hg : WellFormed g) (u : Int)
    (vx : DigraphVertex V E) (hf : g.ImTheMap.find u = some vx) :
    vx.edges.length = g.vertexCount ↔ ∀ v ∈ g.vertices, (u, v) ∈ g.edges := by
  have hmem : (u, vx) ∈ g.ImTheMap := IntMap.mem_of_find _ _ _ hf
  have hown : ∀ e ∈ vx.edges, e.fromVertex = u := fun e he => hg.own (u, vx) hmem e he
  have hsub := edges_sublist_storedEdges g.ImTheMap (u, vx) hmem
  have hpairs : vx.edges.map (fun e => (e.fromVertex, e.toVertex))
      = (vx.edges.map (fun e => e.toVertex)).map (fun t => (u, t)) := by
    rw [List.map_map]
    apply List.map_congr_left
    intro e he
    simp [hown e he]
  have hTnodup : (vx.edges.map (fun e => e.toVertex)).Nodup := by
    have h1 : (vx.edges.map (fun e => (e.fromVertex, e.toVertex))).Nodup :=
      List.Nodup.sublist (hsub.map _) hg.nodup
    rw [hpairs] at h1
    exact List.Nodup.of_map _ h1
  have hTsub : vx.edges.map (fun e => e.toVertex) ⊆ g.vertices := by
    intro t ht
    obtain ⟨e, he, rfl⟩ := List.mem_map.1 ht
    exact hg.closed e (hsub.subset he)
  have hVnodup : g.vertices.Nodup := IntMap.nodup_keys _ hg.ordered
  have hlen : (vx.edges.map (fun e => e.toVertex)).length = vx.edges.length :=
    List.length_map _ _
  have hcount : g.vertexCount = g.vertices.length := by
    simp [vertexCount, vertices]
  constructor
  · intro h v hv
    have hperm : List.Perm (vx.edges.map (fun e => e.toVertex)) g.vertices := by
      apply List.Subperm.perm_of_length_le (List.subperm_of_subset hTnodup hTsub)
      rw [hlen, h, hcount]
    have hvT : v ∈ vx.edges.map (fun e => e.toVertex) := hperm.symm.subset hv
    obtain ⟨e, he, rfl⟩ := List.mem_map.1 hvT
    simp only [edges, List.mem_map]
    exact ⟨e, hsub.subset he, by rw [hown e he]⟩
  · intro h
    have hVsub : g.vertices ⊆ vx.edges.map (fun e => e.toVertex) := by
      intro v hv
      have hed := h v hv
      simp only [edges, List.mem_map] at hed
      obtain ⟨e, he, hp⟩ := hed
      obtain ⟨q, hq, heq⟩ := (mem_storedEdges _ _).1 he
      have hq1 : q.1 = u := by
        rw [← hg.own q hq e heq]
        exact (Prod.mk.inj hp).1
      have hfq := IntMap.find_of_mem g.ImTheMap hg.ordered q hq
      rw [hq1, hf] at hfq
      simp only [Option.some.injEq] at hfq
      rw [← hfq] at heq
      exact List.mem_map.2 ⟨e, heq, (Prod.mk.inj hp).2⟩
    have h1 := (List.subperm_of_subset hTnodup hTsub).length_le
    have h2 := (List.subperm_of_subset hVnodup hVsub).length_le
    rw [hlen] at h1 h2
    rw [hcount]
    omega

/-- The loop of `isStronglyConnected` returns, and returns true exactly when every entry it
runs over has the vertex count as out-degree. -/
theorem isStronglyConnectedLoop_spec (g : Digraph V E) (l : IntMap (DigraphVertex V E))
    (hl : ∀ p ∈ l, p.1 ∈ g.vertices) :
    ∃ b, isStronglyConnectedLoop g l = .ok b ∧
      (b = true ↔ ∀ p ∈ l, g.edgeCountOf p.1 = .ok g.vertexCount) := by
  induction l with
  | nil => exact ⟨true, rfl, by simp⟩
  | cons q rest ih =>
    obtain ⟨k, vx⟩ := q
    obtain ⟨b, hb, hiff⟩ := ih (fun p hp => hl p (List.mem_cons.2 (Or.inr hp)))
    have hk : (g.ImTheMap.find k).isSome :=
      (IntMap.find_isSome_iff _ _).2 (hl (k, vx) (List.mem_cons_self _ _))
    cases hf : g.ImTheMap.find k with
    | none => rw [hf] at hk; cases hk
    | some vy =>
      by_cases hn : vy.edges.length = g.vertexCount
      · refine ⟨b, ?_, ?_⟩
        · simp [isStronglyConnectedLoop, edgeCountOf, hf, hn, hb]
        · rw [hiff]
          constructor
          · intro h p hp
            rcases List.mem_cons.1 hp with h' | h'
            · subst h'
              simp [edgeCountOf, hf, hn]
            · exact h p h'
          · intro h p hp
            exact h p (List.mem_cons.2 (Or.inr hp))
      · refine ⟨false, ?_, ?_⟩
        · simp [isStronglyConnectedLoop, edgeCountOf, hf, hn]
        · constructor
          · intro h; cases h
          · intro h
            have := h (k, vx) (List.mem_cons_self _ _)
            simp only [edgeCountOf, hf, Except.ok.injEq] at this
            exact absurd this hn

/-- C24: for every well-formed graph (ordered map, every edge in the list of its own
`fromVertex`, every end point a vertex, no pair stored twice), `isStronglyConnected()`
returns, and it returns true exactly when every vertex has out-degree `vertexCount()`, which
is exactly when every vertex has an edge to every vertex, itself included (vacuously so on
the empty graph); and whenever it returns true every vertex is reachable from every
vertex. -/
theorem C24_isStronglyConnected_is_degree_test (g : Digraph V E) (hg : WellFormed g) :
    ∃ b, g.isStronglyConnected = .ok b ∧
      (b = true ↔ ∀ v ∈ g.vertices, g.edgeCountOf v = .ok g.vertexCount) ∧
      (b = true ↔ ∀ u ∈ g.vertices, ∀ v ∈ g.vertices, (u, v) ∈ g.edges) ∧
      (b = true → ∀ u ∈ g.vertices, ∀ v ∈ g.vertices, Reachable g u v) := by
  obtain ⟨b, hb, hiff⟩ := isStronglyConnectedLoop_spec g g.ImTheMap
    (fun p hp => List.mem_map.2 ⟨p, hp, rfl⟩)
  have hdeg : (∀ p ∈ g.ImTheMap, g.edgeCountOf p.1 = .ok g.vertexCount) ↔
      ∀ v ∈ g.vertices, g.edgeCountOf v = .ok g.vertexCount := by
    constructor
    · intro h v hv
      obtain ⟨p, hp, rfl⟩ := List.mem_map.1 hv
      exact h p hp
    · intro h p hp
      exact h p.1 (List.mem_map.2 ⟨p, hp, rfl⟩)
  have hcomplete : (∀ v ∈ g.vertices, g.edgeCountOf v = .ok g.vertexCount) ↔
      ∀ u ∈ g.vertices, ∀ v ∈ g.vertices, (u, v) ∈ g.edges := by
    constructor
    · intro h u hu
      obtain ⟨p, hp, rfl⟩ := List.mem_map.1 hu
      have hf := IntMap.find_of_mem g.ImTheMap hg.ordered p hp
      have hu' := h p.1 hu
      simp only [edgeCountOf, hf, Except.ok.injEq] at hu'
      exact (degree_complete_iff g hg p.1 p.2 hf).1 hu'
    · intro h u hu
      obtain ⟨p, hp, rfl⟩ := List.mem_map.1 hu
      have hf := IntMap.find_of_mem g.ImTheMap hg.ordered p hp
      simp only [edgeCountOf, hf, Except.ok.injEq]
      exact (degree_complete_iff g hg p.1 p.2 hf).2 (h p.1 hu)
  refine ⟨b, hb, hiff.trans hdeg, (hiff.trans hdeg).trans hcomplete, ?_⟩
  intro hbt u hu v hv
  exact Reachable.step (Reachable.refl u)
    (((hiff.trans hdeg).trans hcomplete).1 hbt u hu v hv)

/-- Witness for C24: the graph with all four edges on the vertices 0 and 1. -/
theorem C24_isStronglyConnected_is_degree_test_witness :
    WellFormed fullGraph ∧
    ∃ b, fullGraph.isStronglyConnected = .ok b ∧
      (b = true ↔ ∀ v ∈ fullGraph.vertices, fullGraph.edgeCountOf v = .ok fullGraph.vertexCount) ∧
      (b = true ↔ ∀ u ∈ fullGraph.vertices, ∀ v ∈ fullGraph.vertices, (u, v) ∈ fullGraph.edges) ∧
      (b = true → ∀ u ∈ fullGraph.vertices, ∀ v ∈ fullGraph.vertices, Reachable fullGraph u v) :=
  ⟨⟨by decide, by decide, by decide, by decide⟩,
    C24_isStronglyConnected_is_degree_test fullGraph
      ⟨by decide, by decide, by decide, by decide⟩⟩

/-! ## The predecessor map is a tree rooted at the start vertex -/

/-- The backward walk from a key that reaches the start vertex arrives there. -/
theorem Reaches.predChain (pred : IntMap Int) (s t : Int) (h : Reaches pred s t) :
    ∃ fuel l, Digraph.predChain pred fuel t = s :: l ∧ (s :: l).getLast? = some t := by
  induction h with
  | root _ => exact ⟨0, [], rfl, rfl⟩
  | @link t p hts hpt hf _ ih =>
    obtain ⟨fuel, l, hl, _⟩ := ih
    refine ⟨fuel + 1, l ++ [t], ?_, ?_⟩
    · simp only [Digraph.predChain, hf, hpt, if_false, hl, List.cons_append]
    · rw [← List.cons_append, List.getLast?_append]
      simp

/-- The `double` sum 0.1 + 0.2 is 0.30000000000000004, above the exact sum. -/
theorem tenth_add_fifth :
    Binary64.add tenth fifth = threeTenthsUp ∧
    Binary64.gt threeTenthsUp (Binary64.add tenth fifth) = false ∧
    tenth.units 56 + fifth.units 56 < threeTenthsUp.units 56 := by
  refine ⟨by decide, by decide, by decide⟩

end Digraph

end ShortestPathMaps
